import Mathlib

/-!
Verification of the orchestration core of the agent-go-round repository.

The development shallowly embeds the orchestration code:
 - the JSON action grammar and tolerant extraction
   (src/orchestrators/leaderTeam.ts and src/orchestrators/goalDrivenTalk.ts),
 - the leader-team protocol state machine (runLeaderTeam),
 - the single-turn call accumulator (src/orchestrators/oneToOne.ts),
 - the tool invocation bridge (callTool in src/mcp/toolRegistry.ts) and the
   mcp_call turn handler of the goal-driven loop.

JavaScript values are embedded as the inductive type JSVal; backend model
calls are embedded by an oracle function assigning to every call index the
text the model returns (the protocols are strictly sequential, so a single
index-ordered oracle is faithful).  Loops are embedded with explicit fuel
chosen from the code's own termination measure.
-/

namespace AgentGoRound

/-- Model of a JavaScript value as produced by JSON.parse, extended with
undefined so that absent-field access can be embedded faithfully. -/
inductive JSVal where
  | undefined : JSVal
  | null : JSVal
  | bool (b : Bool) : JSVal
  | num (n : Int) : JSVal
  | str (s : String) : JSVal
  | arr (xs : List JSVal) : JSVal
  | obj (kvs : List (String × JSVal)) : JSVal
deriving Repr

mutual

/-- Decidable structural equality for JSVal. -/
def JSVal.beq : JSVal → JSVal → Bool
  | .undefined, .undefined => true
  | .null, .null => true
  | .bool a, .bool b => a == b
  | .num a, .num b => a == b
  | .str a, .str b => a == b
  | .arr a, .arr b => JSVal.beqList a b
  | .obj a, .obj b => JSVal.beqKvs a b
  | _, _ => false

/-- Elementwise equality for JSVal lists. -/
def JSVal.beqList : List JSVal → List JSVal → Bool
  | [], [] => true
  | a :: as', b :: bs' => JSVal.beq a b && JSVal.beqList as' bs'
  | _, _ => false

/-- Elementwise equality for key-value lists. -/
def JSVal.beqKvs : List (String × JSVal) → List (String × JSVal) → Bool
  | [], [] => true
  | (ka, va) :: as', (kb, vb) :: bs' => ka == kb && JSVal.beq va vb && JSVal.beqKvs as' bs'
  | _, _ => false

end

/-- JavaScript truthiness of a value. -/
def truthy : JSVal → Bool
  | .undefined => false
  | .null => false
  | .bool b => b
  | .num n => n != 0
  | .str s => s ≠ ""
  | .arr _ => true
  | .obj _ => true

/-- JavaScript typeof of a value (null and arrays have typeof "object"). -/
def jsTypeof : JSVal → String
  | .undefined => "undefined"
  | .null => "object"
  | .bool _ => "boolean"
  | .num _ => "number"
  | .str _ => "string"
  | .arr _ => "object"
  | .obj _ => "object"

/-- Property access v.k: undefined on non-objects and absent keys; for
duplicate keys the last binding wins, matching JSON.parse assembly. -/
def getField (v : JSVal) (k : String) : JSVal :=
  match v with
  | .obj kvs => (kvs.reverse.lookup k).getD .undefined
  | _ => .undefined

/-- Characters the embedding treats as JavaScript whitespace (the ASCII
fragment of the \s class and of String.prototype.trim). -/
def wsChar (c : Char) : Bool :=
  c = ' ' ∨ c = '\t' ∨ c = '\n' ∨ c = '\r' ∨ c = '\x0b' ∨ c = '\x0c'

/-- Model of String.prototype.trim (ASCII whitespace fragment). -/
def jsTrim (s : String) : String :=
  ⟨(s.data.dropWhile wsChar).reverse.dropWhile wsChar |>.reverse⟩

/-- Model of String.prototype.toLowerCase (ASCII fragment). -/
def jsToLower (s : String) : String :=
  ⟨s.data.map Char.toLower⟩

/-- Model of String(x) coercion, used when an error value is stringified. -/
def jsToString : JSVal → String
  | .undefined => "undefined"
  | .null => "null"
  | .bool b => if b then "true" else "false"
  | .num n => toString n
  | .str s => s
  | .arr _ => ""
  | .obj _ => "[object Object]"

/-! ### A model of JSON.parse

Modelled from the spec: JSON.parse is the ECMAScript built-in used by
extractJsonObject in both orchestrators; it is not part of the repository
sources.  The model below implements strict JSON parsing of objects,
arrays, strings (with the standard escapes), integer numeric literals,
booleans and null, rejecting trailing commas, smart quotes and any other
deviation, exactly as the built-in does on this fragment.  Non-integer
numeric literals are outside the model; no claim involves them. -/

/-- Drop leading JSON whitespace. -/
def skipWs (cs : List Char) : List Char :=
  cs.dropWhile wsChar

/-- Decode one JSON escape character; none for invalid escapes (\u is
handled separately). -/
def escChar : Char → Option Char
  | '"' => some '"'
  | '\\' => some '\\'
  | '/' => some '/'
  | 'b' => some '\x08'
  | 'f' => some '\x0c'
  | 'n' => some '\n'
  | 'r' => some '\r'
  | 't' => some '\t'
  | _ => none

/-- Whether a character is a hexadecimal digit. -/
def isHexDigitChar (c : Char) : Bool :=
  c.isDigit ∨ ('a' ≤ c ∧ c ≤ 'f') ∨ ('A' ≤ c ∧ c ≤ 'F')

/-- Numeric value of a hexadecimal digit. -/
def hexVal (c : Char) : Nat :=
  if c.isDigit then c.toNat - '0'.toNat
  else if 'a' ≤ c ∧ c ≤ 'f' then c.toNat - 'a'.toNat + 10
  else c.toNat - 'A'.toNat + 10

/-- Parse the body of a JSON string literal after the opening quote;
returns the decoded characters and the remainder after the closing quote. -/
def parseStrBody : List Char → Option (List Char × List Char)
  | [] => none
  | c :: rest =>
    if c = '"' then some ([], rest)
    else if c = '\\' then
      match rest with
      | 'u' :: h1 :: h2 :: h3 :: h4 :: rest' =>
        if isHexDigitChar h1 ∧ isHexDigitChar h2 ∧ isHexDigitChar h3 ∧ isHexDigitChar h4 then
          let code := ((hexVal h1 * 16 + hexVal h2) * 16 + hexVal h3) * 16 + hexVal h4
          (parseStrBody rest').map fun p => (Char.ofNat code :: p.1, p.2)
        else none
      | e :: rest' =>
        match escChar e with
        | some d => (parseStrBody rest').map fun p => (d :: p.1, p.2)
        | none => none
      | [] => none
    else if c.toNat < 32 then none
    else (parseStrBody rest).map fun p => (c :: p.1, p.2)

/-- Parse a JSON integer literal (optional minus, digit run). -/
def parseNum (cs : List Char) : Option (Int × List Char) :=
  let (neg, cs') := match cs with
    | '-' :: t => (true, t)
    | t => (false, t)
  let digits := cs'.takeWhile Char.isDigit
  let rest := cs'.dropWhile Char.isDigit
  if digits.isEmpty then none
  else
    let n : Nat := digits.foldl (fun a c => a * 10 + (c.toNat - '0'.toNat)) 0
    some (if neg then -(n : Int) else (n : Int), rest)

mutual

/-- Parse one JSON value (after skipping leading whitespace). -/
def parseVal : Nat → List Char → Option (JSVal × List Char)
  | 0, _ => none
  | fuel + 1, cs =>
    match skipWs cs with
    | '\x7b' :: rest => parseObjBody fuel rest
    | '[' :: rest => parseArrBody fuel rest
    | '"' :: rest => (parseStrBody rest).map fun p => (.str ⟨p.1⟩, p.2)
    | 't' :: 'r' :: 'u' :: 'e' :: rest => some (.bool true, rest)
    | 'f' :: 'a' :: 'l' :: 's' :: 'e' :: rest => some (.bool false, rest)
    | 'n' :: 'u' :: 'l' :: 'l' :: rest => some (.null, rest)
    | c :: rest =>
      if c.isDigit ∨ c = '-' then (parseNum (c :: rest)).map fun p => (.num p.1, p.2)
      else none
    | [] => none

/-- Parse the members of a JSON object after the opening brace. -/
def parseObjBody : Nat → List Char → Option (JSVal × List Char)
  | 0, _ => none
  | fuel + 1, cs =>
    match skipWs cs with
    | '\x7d' :: rest => some (.obj [], rest)
    | '"' :: rest =>
      match parseStrBody rest with
      | none => none
      | some (key, afterKey) =>
        match skipWs afterKey with
        | ':' :: afterColon =>
          match parseVal fuel afterColon with
          | none => none
          | some (v, afterVal) =>
            match skipWs afterVal with
            | ',' :: afterComma =>
              match parseObjMore fuel afterComma with
              | some (.obj kvs, rest') => some (.obj ((⟨key⟩, v) :: kvs), rest')
              | _ => none
            | '\x7d' :: rest' => some (.obj [(⟨key⟩, v)], rest')
            | _ => none
        | _ => none
    | _ => none

/-- Parse the members of a JSON object after a separating comma (a closing
brace here would be a trailing comma, which strict JSON rejects). -/
def parseObjMore : Nat → List Char → Option (JSVal × List Char)
  | 0, _ => none
  | fuel + 1, cs =>
    match skipWs cs with
    | '"' :: rest =>
      match parseStrBody rest with
      | none => none
      | some (key, afterKey) =>
        match skipWs afterKey with
        | ':' :: afterColon =>
          match parseVal fuel afterColon with
          | none => none
          | some (v, afterVal) =>
            match skipWs afterVal with
            | ',' :: afterComma =>
              match parseObjMore fuel afterComma with
              | some (.obj kvs, rest') => some (.obj ((⟨key⟩, v) :: kvs), rest')
              | _ => none
            | '\x7d' :: rest' => some (.obj [(⟨key⟩, v)], rest')
            | _ => none
        | _ => none
    | _ => none

/-- Parse the elements of a JSON array after the opening bracket. -/
def parseArrBody : Nat → List Char → Option (JSVal × List Char)
  | 0, _ => none
  | fuel + 1, cs =>
    match skipWs cs with
    | ']' :: rest => some (.arr [], rest)
    | _ =>
      match parseVal fuel cs with
      | none => none
      | some (v, afterVal) =>
        match skipWs afterVal with
        | ',' :: afterComma =>
          match parseArrMore fuel afterComma with
          | some (.arr xs, rest') => some (.arr (v :: xs), rest')
          | _ => none
        | ']' :: rest' => some (.arr [v], rest')
        | _ => none

/-- Parse the elements of a JSON array after a separating comma. -/
def parseArrMore : Nat → List Char → Option (JSVal × List Char)
  | 0, _ => none
  | fuel + 1, cs =>
    match skipWs cs with
    | ']' :: _ => none
    | _ =>
      match parseVal fuel cs with
      | none => none
      | some (v, afterVal) =>
        match skipWs afterVal with
        | ',' :: afterComma =>
          match parseArrMore fuel afterComma with
          | some (.arr xs, rest') => some (.arr (v :: xs), rest')
          | _ => none
        | ']' :: rest' => some (.arr [v], rest')
        | _ => none

end

/-- The member-parsing continuation shared by parseObjBody and
parseObjMore after the opening quote of a key: definitionally equal to
the body of either function in its quote branch, convenient for symbolic
reasoning. -/
def memberStep (fuel : Nat) (l : List Char) : Option (JSVal × List Char) :=
  match parseStrBody l with
  | none => none
  | some (key, afterKey) =>
    match skipWs afterKey with
    | ':' :: afterColon =>
      match parseVal fuel afterColon with
      | none => none
      | some (v, afterVal) =>
        match skipWs afterVal with
        | ',' :: afterComma =>
          match parseObjMore fuel afterComma with
          | some (.obj kvs, rest') => some (.obj ((⟨key⟩, v) :: kvs), rest')
          | _ => none
        | '\x7d' :: rest' => some (.obj [(⟨key⟩, v)], rest')
        | _ => none
    | _ => none

/-- Model of JSON.parse on a whole string: one value, possibly surrounded
by whitespace; anything left over makes the parse fail. -/
def jsonParse (s : String) : Option JSVal :=
  match parseVal (s.length + 1) s.data with
  | some (v, rest) => if skipWs rest = [] then some v else none
  | none => none

/-! ### Tolerant extraction (leaderTeam.ts lines 41-60, goalDrivenTalk.ts lines 20-28) -/

/-- First pass of sanitizeJsonText: the two global replaces mapping curly
double and single quotes to straight double quotes. -/
def smartQuoteFix (c : Char) : Char :=
  if c = '“' ∨ c = '”' ∨ c = '‘' ∨ c = '’' then '"' else c

/-- One-pass scanner equivalent to the global left-to-right replacement of
a comma, optional whitespace and a closing bracket by the bracket alone.
The pending buffer holds, in reverse, a comma followed by whitespace whose
match is still undecided; on a closing bracket the buffer is dropped, on
any other character the buffer is flushed unchanged and scanning resumes
at that character (only a fresh comma can start a new match). -/
def stripGo : List Char → List Char → List Char
  | pending, [] => pending.reverse
  | [], c :: rest =>
    if c = ',' then stripGo [c] rest
    else c :: stripGo [] rest
  | p :: ps, c :: rest =>
    if c = '\x7d' ∨ c = ']' then c :: stripGo [] rest
    else if wsChar c then stripGo (c :: p :: ps) rest
    else if c = ',' then (p :: ps).reverse ++ stripGo [c] rest
    else (p :: ps).reverse ++ c :: stripGo [] rest

/-- Third pass of sanitizeJsonText: strip trailing commas before a closing
brace or bracket. -/
def stripTrailingCommas (cs : List Char) : List Char :=
  stripGo [] cs

/-- sanitizeJsonText from leaderTeam.ts: normalize smart quotes to straight
quotes, then strip trailing commas before a closing brace or bracket. -/
def sanitizeJsonText (s : String) : String :=
  ⟨stripTrailingCommas (s.data.map smartQuoteFix)⟩

/-- The span matched by the greedy regex from the first opening brace to
the last closing brace, when one exists. -/
def braceSpan (s : String) : Option String :=
  let cs := s.data
  match cs.findIdx? (· = '\x7b') with
  | none => none
  | some i =>
    match (cs.reverse.findIdx? (· = '\x7d')) with
    | none => none
    | some jr =>
      let j := cs.length - 1 - jr
      if i < j then some ⟨(cs.take (j + 1)).drop i⟩ else none

/-- extractJsonObject from leaderTeam.ts: match the brace span, try a
strict parse, and on failure retry once on the sanitized span. -/
def extractJsonObject (text : String) : Option JSVal :=
  match braceSpan text with
  | none => none
  | some span =>
    match jsonParse span with
    | some v => some v
    | none => jsonParse (sanitizeJsonText span)

/-- extractJsonObject from goalDrivenTalk.ts: the same brace span and
strict parse, but with no sanitation retry. -/
def extractJsonObjectGoal (text : String) : Option JSVal :=
  match braceSpan text with
  | none => none
  | some span => jsonParse span

/-! ### Action normalization (leaderTeam.ts lines 62-104) -/

/-- The leader protocol's action union. -/
inductive Action where
  | askMember (memberId message : String)
  | finish (answer : String)
deriving Repr, DecidableEq

/-- The discriminator string the leader normalizeAction computes: the type
field if it is a string, else the legacy action field if it is a string,
else the empty string; lowercased then trimmed. -/
def actionTypeTag (v : JSVal) : String :=
  match getField v "type" with
  | .str s => jsTrim (jsToLower s)
  | _ =>
    match getField v "action" with
    | .str s => jsTrim (jsToLower s)
    | _ => ""

/-- normalizeAction from leaderTeam.ts. -/
def normalizeAction (v : JSVal) : Option Action :=
  if ¬ truthy v ∨ jsTypeof v ≠ "object" then none
  else
    let ty := actionTypeTag v
    if ty = "finish" then
      match getField v "answer" with
      | .str ans => some (.finish ans)
      | _ => none
    else if ty = "ask_member" then
      match getField v "memberId", getField v "message" with
      | .str mid, .str msg => some (.askMember mid msg)
      | _, _ => none
    else none

/-- A verification decision as normalized by the leader protocol. -/
structure VerifyDecision where
  ok : Bool
  reason : Option String
  react : Option (String × String)
deriving Repr, DecidableEq

/-- normalizeVerify from leaderTeam.ts. -/
def normalizeVerify (v : JSVal) : Option VerifyDecision :=
  if ¬ truthy v ∨ jsTypeof v ≠ "object" then none
  else
    match getField v "ok" with
    | .bool b =>
      let reason := match getField v "reason" with
        | .str s => some s
        | _ => none
      let r := getField v "react"
      if ¬ truthy r then some ⟨b, reason, none⟩
      else if jsTypeof r = "object" then
        match getField r "memberId", getField r "message" with
        | .str mid, .str msg => some ⟨b, reason, some (mid, msg)⟩
        | _, _ => some ⟨b, reason, none⟩
      else some ⟨b, reason, none⟩
    | _ => none

/-- A planned assignment: a member id paired with a task message.  The
source keeps raw objects in PlanDecision.assignments and projects the
memberId and message fields downstream; the filter keeps exactly the
objects on which both projections are strings, so the embedding extracts
the two strings at filter time. -/
abbrev Assignment := String × String

/-- The filter condition of normalizePlan: a truthy value with string
memberId and message fields. -/
def validAssignment (a : JSVal) : Option Assignment :=
  if ¬ truthy a then none
  else
    match getField a "memberId", getField a "message" with
    | .str mid, .str msg => some (mid, msg)
    | _, _ => none

/-- normalizePlan from leaderTeam.ts: requires an assignments array, keeps
structurally valid members, refuses an empty result. -/
def normalizePlan (v : JSVal) : Option (List Assignment) :=
  if ¬ truthy v ∨ jsTypeof v ≠ "object" then none
  else
    match getField v "assignments" with
    | .arr xs =>
      let assignments := xs.filterMap validAssignment
      if assignments.isEmpty then none else some assignments
    | _ => none

/-! ### Goal-driven action normalization (goalDrivenTalk.ts lines 30-53) -/

/-- The goal-driven protocol's action union. -/
inductive GoalAction where
  | plan (items : List (String × String))
  | think (thought : String)
  | docLookup (query : Option String)
  | mcpCall (tool : String) (input : JSVal) (serverId : Option String)
  | final (answer : String)
deriving Repr

/-- The item filter inside the plan branch: objects with string goal and
agent fields survive; the goal and agent strings are what is kept. -/
def validPlanItem (it : JSVal) : Option (String × String) :=
  if ¬ truthy it then none
  else
    match getField it "goal", getField it "agent" with
    | .str g, .str a => some (g, a)
    | _, _ => none

/-- Strict equality of a value's type field with a given string, as in the
source's comparisons of obj.type with a string literal. -/
def typeIs (v : JSVal) (s : String) : Bool :=
  match getField v "type" with
  | .str t => t = s
  | _ => false

/-- The branches of goalDrivenTalk's normalizeAction after the plan branch,
reached also when the plan branch yields no valid items. -/
def normalizeActionGoalRest (v : JSVal) : Option GoalAction :=
  if typeIs v "final" then
    match getField v "answer" with
    | .str ans => some (.final ans)
    | _ => none
  else if typeIs v "think" then
    match getField v "thought" with
    | .str th => some (.think th)
    | _ => none
  else if typeIs v "doc_lookup" then
    some (.docLookup (match getField v "query" with
      | .str q => some q
      | _ => none))
  else if typeIs v "mcp_call" then
    match getField v "tool" with
    | .str tool =>
      some (.mcpCall tool (getField v "input")
        (match getField v "serverId" with
          | .str sid => some sid
          | _ => none))
    | _ => none
  else none

/-- normalizeAction from goalDrivenTalk.ts: the discriminator is compared
with strict equality against the type field only (no trimming, no case
folding, no legacy action field). -/
def normalizeActionGoal (v : JSVal) : Option GoalAction :=
  if ¬ truthy v ∨ jsTypeof v ≠ "object" then none
  else
    match typeIs v "plan", getField v "items" with
    | true, .arr xs =>
      let items := xs.filterMap validPlanItem
      if ¬ items.isEmpty then some (.plan items)
      else normalizeActionGoalRest v
    | _, _ => normalizeActionGoalRest v

/-! ### The leader-team protocol (leaderTeam.ts lines 245-588)

The protocol issues strictly sequential backend calls; the embedding makes
the backends an oracle resp assigning to every call index the text that
call returns.  Prompt construction (buildLeaderPrompt and friends) only
shapes the text sent to the backend, never the control flow, and the
oracle is quantified over all responses, so prompts are not modelled. -/

/-- The identity and display name of a configured member agent. -/
structure MemberMeta where
  id : String
  name : String
deriving Repr, DecidableEq

/-- Map lookup over the member index built from the configured member
list; for duplicate ids the last entry wins, as in a JS Map. -/
def memberLookup (members : List MemberMeta) (mid : String) : Option MemberMeta :=
  members.reverse.find? fun m => m.id = mid

/-- The composition normalizeAction(extractJsonObject(text)): a failed
extraction passes JS null to the normalizer, which rejects it. -/
def parseAction (text : String) : Option Action :=
  normalizeAction ((extractJsonObject text).getD .null)

/-- The composition normalizeVerify(extractJsonObject(text)). -/
def parseVerify (text : String) : Option VerifyDecision :=
  normalizeVerify ((extractJsonObject text).getD .null)

/-- The composition normalizePlan(extractJsonObject(text)). -/
def parsePlan (text : String) : Option (List Assignment) :=
  normalizePlan ((extractJsonObject text).getD .null)

/-- The stateful filter at leaderTeam.ts lines 304-306: keep assignments
whose memberId is in the allowed set and not seen before. -/
def dedupFilter (allowed : List String) : List Assignment → List String → List Assignment
  | [], _ => []
  | a :: rest, seen =>
    if a.1 ∈ allowed ∧ a.1 ∉ seen then a :: dedupFilter allowed rest (a.1 :: seen)
    else dedupFilter allowed rest seen

/-- The planning phase, leaderTeam.ts lines 284-308: start from the
default one-empty-task-per-member plan, replace it by the validated,
deduplicated, membership-filtered parsed plan when one parses, and fall
back to the default when the result is empty. -/
def computePlannedAssignments (memberIds : List String) (planText : String) : List Assignment :=
  let base : List Assignment := memberIds.map fun i => (i, "")
  let planned := match parsePlan planText with
    | some assignments => dedupFilter memberIds assignments []
    | none => base
  if planned.isEmpty then base else planned

/-- One transcript step of RunState.steps. -/
inductive Step where
  | leaderAction (text : String)
  | memberReply (memberId memberName prompt reply : String)
deriving Repr, DecidableEq

/-- One backend call issued by the protocol, labelled by call site. -/
inductive LTCall where
  | planCall
  | decision
  | finalVerify
  | memberCall (memberId message : String)
  | verifyCall
  | reactCall (memberId message : String)
  | forcedFinal
deriving Repr, DecidableEq

/-- How a leader-team session ended. -/
inductive TermKind where
  | invalidJson
  | unknownMember
  | finish
  | forced
  | fuelOut
deriving Repr, DecidableEq

/-- The observable outcome of a leader-team session: the final answer,
the ordered backend calls, the final transcript, and the exit path. -/
structure RunOut where
  answer : String
  trace : List LTCall
  steps : List Step
  kind : TermKind
deriving Repr, DecidableEq

/-- The mutable protocol state threaded through the verification
sub-loop. -/
structure VerifySt where
  steps : List Step
  reactCount : Nat
  callIdx : Nat
  trace : List LTCall
deriving Repr, DecidableEq

/-- Configuration of a leader-team session: the member roster and the
optional tuning knobs exactly as they reach runLeaderTeam. -/
structure LTConfig where
  members : List MemberMeta
  maxRoundsOpt : Option Nat
  reactMaxOpt : Option Nat
  retryMaxOpt : Option Int
deriving Repr

/-- maxRounds with its default, leaderTeam.ts line 262. -/
def LTConfig.maxRounds (cfg : LTConfig) : Nat := cfg.maxRoundsOpt.getD 8

/-- reactMax with its default, leaderTeam.ts line 263. -/
def LTConfig.reactMax (cfg : LTConfig) : Nat := cfg.reactMaxOpt.getD 2

/-- retryMax clamped at zero, leaderTeam.ts line 268. -/
def LTConfig.retryMax (cfg : LTConfig) : Nat := (cfg.retryMaxOpt.getD 0).toNat

/-- The state change of issuing the verify call: consume one oracle index
and record the call. -/
def bumpVerify (st : VerifySt) : VerifySt :=
  { st with callIdx := st.callIdx + 1, trace := st.trace ++ [.verifyCall] }

/-- The state change of one react re-delegation: consume the react
member's reply, count the react, and append the two transcript steps of
leaderTeam.ts lines 526-545. -/
def reactUpdate (reason : Option String) (m : MemberMeta) (rmsg reply : String)
    (st1 : VerifySt) : VerifySt :=
  { steps := st1.steps ++
      [.leaderAction ("VERIFY: " ++ reason.getD "" ++
         "\nREACT -> " ++ m.name ++ " (" ++ m.id ++ "): " ++ rmsg),
       .memberReply m.id m.name rmsg reply]
    reactCount := st1.reactCount + 1
    callIdx := st1.callIdx + 1
    trace := st1.trace ++ [.reactCall m.id rmsg] }

/-- The verification sub-loop, leaderTeam.ts lines 449-549: verify the
last reply, stop on ok, on unparseable output, on a missing or unknown
react target, or on an exhausted react budget; otherwise re-delegate and
verify again.  Each recursive step increments reactCount, so fuel
reactMax + 1 - reactCount runs the loop to its own exit. -/
def verifyLoop (resp : Nat → String) (members : List MemberMeta) (reactMax : Nat) :
    Nat → String → String → VerifySt → VerifySt
  | 0, _, _, st => st
  | fuel + 1, _vPrompt, _vReply, st =>
    let st1 := bumpVerify st
    match parseVerify (resp st.callIdx) with
    | none => st1
    | some v =>
      if v.ok then st1
      else
        match v.react with
        | none => st1
        | some (rid, rmsg) =>
          if st1.reactCount ≥ reactMax then st1
          else
            match memberLookup members rid with
            | none => st1
            | some m =>
              verifyLoop resp members reactMax fuel rmsg (resp st1.callIdx)
                (reactUpdate v.reason m rmsg (resp st1.callIdx) st1)

/-- The message actually sent to the asked member, leaderTeam.ts line 412:
the trimmed planned message when non-empty, else the action's message. -/
def askMessage (nextAssignment : Option Assignment) (actionMessage : String) : String :=
  match nextAssignment with
  | some (_, pm) => if jsTrim pm = "" then actionMessage else jsTrim pm
  | none => actionMessage

/-- The mutable protocol state threaded through the round loop. -/
structure LoopSt where
  round : Nat
  planIndex : Nat
  invalidRetries : Nat
  reactCount : Nat
  steps : List Step
  callIdx : Nat
  trace : List LTCall
deriving Repr, DecidableEq

/-- The planned assignment for the current round index, with the source's
fallback to the last assignment once the plan index runs past the end. -/
def nextAssignmentOf (planned : List Assignment) (planIndex : Nat) : Option Assignment :=
  (planned.get? planIndex).orElse fun _ => planned.getLast?

/-- The state change of issuing the round's leader decision call. -/
def bumpDecision (leaderText : String) (st : LoopSt) : LoopSt :=
  { st with
    callIdx := st.callIdx + 1
    trace := st.trace ++ [.decision]
    steps := st.steps ++ [.leaderAction leaderText] }

/-- The state change of one invalid-action retry: count the retry and
repeat the round. -/
def bumpRetry (st1 : LoopSt) : LoopSt :=
  { st1 with invalidRetries := st1.invalidRetries + 1 }

/-- The state change of invoking the asked member: consume its reply and
record the transcript step, whose prompt is the action's message. -/
def askUpdate (m : MemberMeta) (message amsg reply : String) (st1 : LoopSt) : LoopSt :=
  { st1 with
    callIdx := st1.callIdx + 1
    trace := st1.trace ++ [.memberCall m.id message]
    steps := st1.steps ++ [.memberReply m.id m.name amsg reply] }

/-- Re-assemble the round state after the verification sub-loop, advance
the round and the plan index. -/
def mergeVerify (st1 : LoopSt) (vs : VerifySt) : LoopSt :=
  { round := st1.round + 1
    planIndex := st1.planIndex + 1
    invalidRetries := st1.invalidRetries
    reactCount := vs.reactCount
    steps := vs.steps
    callIdx := vs.callIdx
    trace := vs.trace }

/-- The verification state at the entry of the sub-loop. -/
def LoopSt.toVerifySt (st : LoopSt) : VerifySt :=
  ⟨st.steps, st.reactCount, st.callIdx, st.trace⟩

/-- The round loop, leaderTeam.ts lines 316-553, followed by the forced
finalization of lines 555-587 once round exceeds maxRounds.  Every
iteration either returns, increments invalidRetries below retryMax, or
increments round, so fuel maxRounds + retryMax + 1 runs the loop to its
own exit. -/
def mainLoop (resp : Nat → String) (members : List MemberMeta)
    (maxRounds reactMax retryMax : Nat) (planned : List Assignment) :
    Nat → LoopSt → RunOut
  | 0, st => ⟨"", st.trace, st.steps, .fuelOut⟩
  | fuel + 1, st =>
    if st.round > maxRounds then
      let finalText := resp st.callIdx
      let answer := match parseAction finalText with
        | some (.finish ans) => ans
        | _ => finalText
      ⟨answer, st.trace ++ [.forcedFinal], st.steps, .forced⟩
    else
      let nextAssignment := nextAssignmentOf planned st.planIndex
      let leaderText := resp st.callIdx
      let st1 := bumpDecision leaderText st
      match parseAction leaderText with
      | none =>
        if st1.invalidRetries < retryMax then
          mainLoop resp members maxRounds reactMax retryMax planned fuel (bumpRetry st1)
        else ⟨leaderText, st1.trace, st1.steps, .invalidJson⟩
      | some (.finish answer) =>
        ⟨answer, st1.trace ++ [.finalVerify], st1.steps, .finish⟩
      | some (.askMember aid amsg) =>
        let resolvedId := (nextAssignment.map Prod.fst).getD aid
        match memberLookup members resolvedId with
        | none => ⟨leaderText, st1.trace, st1.steps, .unknownMember⟩
        | some m =>
          let message := askMessage nextAssignment amsg
          let st2 := askUpdate m message amsg (resp st1.callIdx) st1
          mainLoop resp members maxRounds reactMax retryMax planned fuel
            (mergeVerify st1 (verifyLoop resp members reactMax
              (reactMax + 1 - st2.reactCount) message (resp st1.callIdx) st2.toVerifySt))

/-- runLeaderTeam: the planning call at oracle index 0 builds the plan,
then the round loop starts at round 1 with the remaining oracle. -/
def runLeaderTeam (cfg : LTConfig) (resp : Nat → String) : RunOut :=
  let planText := resp 0
  let planned := computePlannedAssignments (cfg.members.map (·.id)) planText
  mainLoop resp cfg.members cfg.maxRounds cfg.reactMax cfg.retryMax planned
    (cfg.maxRounds + cfg.retryMax + 1)
    ⟨1, 0, 0, 0, [], 1, [.planCall]⟩

/-- The plan a session runs with, as exposed to the leader_plan event. -/
def sessionPlan (cfg : LTConfig) (resp : Nat → String) : List Assignment :=
  computePlannedAssignments (cfg.members.map (·.id)) (resp 0)

/-- Whether a call is a main-round leader decision call. -/
def isDecision (c : LTCall) : Bool :=
  c = .decision

/-- Whether a call is a react re-delegation (a react member invocation). -/
def isReact : LTCall → Bool
  | .reactCall _ _ => true
  | _ => false

/-- The number of main-round leader decision calls a session issues before
the forced-finalization call (all of them when none is issued). -/
def decisionsBeforeForced (trace : List LTCall) : Nat :=
  (trace.takeWhile fun c => c ≠ .forcedFinal).countP isDecision

/-- The assignments of the parsed plan that survive validation, membership
filtering and deduplication; empty when no plan parses at all. -/
def validPlannedAssignments (memberIds : List String) (planText : String) : List Assignment :=
  match parsePlan planText with
  | some assignments => dedupFilter memberIds assignments []
  | none => []

/-! ### Single-turn call (oneToOne.ts lines 4-31) -/

/-- One event of the backend adapter stream. -/
inductive AdapterEvent where
  | delta (text : String)
  | done (text : String)
deriving Repr, DecidableEq

/-- The loop body of runOneToOne: a delta appends to the accumulator and
is forwarded to the onDelta sink; a done event replaces the accumulator. -/
def oneToOneStep : String × List String → AdapterEvent → String × List String
  | (full, sent), .delta t => (full ++ t, sent ++ [t])
  | (_, sent), .done t => (t, sent)

/-- runOneToOne over a finite adapter event sequence: returns the final
accumulated text and the texts forwarded to the onDelta sink, in order. -/
def runOneToOne (evs : List AdapterEvent) : String × List String :=
  evs.foldl oneToOneStep ("", [])

/-- The texts of the delta events of a sequence, in order. -/
def deltaTexts (evs : List AdapterEvent) : List String :=
  evs.filterMap fun e => match e with
    | .delta t => some t
    | .done _ => none

/-- In-order concatenation of a list of texts. -/
def concatAll (l : List String) : String :=
  l.foldr (· ++ ·) ""

/-! ### Tool invocation bridge (toolRegistry callTool) and the mcp_call
turn of the goal-driven loop (goalDrivenTalk.ts lines 181-207) -/

/-- A transport response frame: optional result and error members. -/
structure RpcRes where
  result : Option JSVal
  error : Option JSVal
deriving Repr

/-- callTool from the tool registry: throw String(res.error) when the
error member is truthy, otherwise return res.result.  Thrown errors are
embedded as the Except error branch carrying the thrown message. -/
def callTool (res : RpcRes) : Except String JSVal :=
  if truthy (res.error.getD .undefined) then .error (jsToString (res.error.getD .undefined))
  else .ok (res.result.getD .undefined)

/-- A tool-server configuration as far as the orchestrator reads it. -/
structure ServerConfig where
  id : String
  name : String
deriving Repr, DecidableEq

/-- JS nullish coalescing of a value with a default. -/
def nullish (v : JSVal) (d : JSVal) : JSVal :=
  match v with
  | .undefined => d
  | .null => d
  | _ => v

/-- The targetServer expression of goalDrivenTalk.ts lines 182-185: both
branches of the conditional produce the active server, so the serverId of
the action never changes the dispatch target. -/
def resolveTargetServer (active : Option ServerConfig) (sid : Option String) :
    Option ServerConfig :=
  let cond : Bool := match sid, active with
    | some s, some a => s ≠ "" && a.id == s
    | _, _ => false
  if cond then active else active

/-- Escape one character for the JSON string serializer. -/
def escapeOut (c : Char) : List Char :=
  if c = '"' then ['\\', '"']
  else if c = '\\' then ['\\', '\\']
  else if c = '\n' then ['\\', 'n']
  else if c = '\r' then ['\\', 'r']
  else if c = '\t' then ['\\', 't']
  else [c]

mutual

/-- A model of JSON.stringify restricted to compact output; only the
content of tool messages depends on it and no claim inspects that
content, so the indentation argument of the source call is not modelled. -/
def jsonStringify : JSVal → String
  | .undefined => "null"
  | .null => "null"
  | .bool b => if b then "true" else "false"
  | .num n => toString n
  | .str s => "\"" ++ ⟨s.data.flatMap escapeOut⟩ ++ "\""
  | .arr xs => "[" ++ jsonStringifyList xs ++ "]"
  | .obj kvs => "\x7b" ++ jsonStringifyKvs kvs ++ "\x7d"

/-- Comma-separated serialization of array elements. -/
def jsonStringifyList : List JSVal → String
  | [] => ""
  | [x] => jsonStringify x
  | x :: xs => jsonStringify x ++ "," ++ jsonStringifyList xs

/-- Comma-separated serialization of object members. -/
def jsonStringifyKvs : List (String × JSVal) → String
  | [] => ""
  | [(k, v)] => "\"" ++ ⟨k.data.flatMap escapeOut⟩ ++ "\":" ++ jsonStringify v
  | (k, v) :: kvs =>
    "\"" ++ ⟨k.data.flatMap escapeOut⟩ ++ "\":" ++ jsonStringify v ++ "," ++ jsonStringifyKvs kvs

end

/-- stringifyAny from goalDrivenTalk.ts. -/
def stringifyAny (v : JSVal) : String :=
  match v with
  | .undefined => "undefined"
  | .null => "null"
  | .str s => s
  | _ => jsonStringify v

/-- A chat message as far as the claims read it (the random id and the
timestamp of makeMsg are environment effects outside the model). -/
structure ChatMsg where
  role : String
  content : String
  name : Option String
deriving Repr, DecidableEq

/-- The mcp_call turn of the goal-driven loop: resolve the target server,
skip when none is active, otherwise invoke the tool and inject the result
as a tool message; a thrown tool error is caught here and injected as an
error-text tool message.  The function is total: no branch propagates an
error out of the loop. -/
def handleMcpCall (active : Option ServerConfig) (tool : String) (input : JSVal)
    (sid : Option String) (transport : RpcRes) : ChatMsg :=
  match resolveTargetServer active sid with
  | none => ⟨"tool", "MCP call skipped: no active MCP server selected.", some "mcp"⟩
  | some srv =>
    match callTool transport with
    | .ok result =>
      ⟨"tool",
        "MCP " ++ srv.name ++ " -> " ++ tool ++ "\ninput:\n" ++
          stringifyAny (nullish input (.obj [])) ++ "\noutput:\n" ++ stringifyAny result,
        some "mcp"⟩
    | .error emsg => ⟨"tool", "MCP error for " ++ tool ++ ": " ++ emsg, some "mcp"⟩

/-! ### Renderings for the sanitization round-trip claim

A flat JSON object over a plain alphabet, rendered once with curly smart
quotes and a trailing comma before the closing brace, and once as its
strict-JSON equivalent. -/

/-- Characters over which the round-trip is stated: ASCII alphanumerics
and the space, which are untouched by quote normalization, never begin a
trailing-comma match, and need no escaping inside a JSON string. -/
def plainChar (c : Char) : Bool :=
  c.isAlphanum ∨ c = ' '

/-- A string of plain characters. -/
def plainStr (s : String) : Bool :=
  s.data.all plainChar

/-- The characters of one member rendered with curly smart quotes, as in
the spec's example of a smart-quoted key and value pair. -/
def smartMemChars (a : String × String) : List Char :=
  '“' :: (a.1.data ++ ('”' :: ':' :: ' ' :: '“' :: (a.2.data ++ ['”'])))

/-- The characters of one member rendered with strict JSON quotes. -/
def strictMemChars (a : String × String) : List Char :=
  '"' :: (a.1.data ++ ('"' :: ':' :: ' ' :: '"' :: (a.2.data ++ ['"'])))

/-- Members joined by a comma and a space. -/
def joinMems (mem : String × String → List Char) : List (String × String) → List Char
  | [] => []
  | [a] => mem a
  | a :: rest => mem a ++ (',' :: ' ' :: joinMems mem rest)

/-- The smart-quoted rendering of a flat object with a trailing comma
before the closing brace. -/
def renderSmart (kvs : List (String × String)) : String :=
  ⟨'\x7b' :: (joinMems smartMemChars kvs ++ [',', '\x7d'])⟩

/-- The strict-JSON equivalent of the same object. -/
def renderStrict (kvs : List (String × String)) : String :=
  ⟨'\x7b' :: (joinMems strictMemChars kvs ++ ['\x7d'])⟩

/-- The logical object both renderings denote. -/
def renderedObj (kvs : List (String × String)) : JSVal :=
  .obj (kvs.map fun p => (p.1, .str p.2))

/-! ### Concrete sessions used to settle the round-bound and
unknown-member claims -/

/-- A one-member roster with maxRounds 1 and one invalid-action retry. -/
def c1Cfg : LTConfig := ⟨[⟨"m1", "M One"⟩], some 1, none, some 1⟩

/-- An oracle whose first decision is invalid JSON and whose second is a
valid ask_member, driving the session into forced finalization. -/
def c1Resp : Nat → String
  | 0 => "nope"
  | 1 => "still not json"
  | 2 => "\x7b\"type\":\"ask_member\",\"memberId\":\"m1\",\"message\":\"go\"\x7d"
  | 3 => "hi"
  | 4 => "\x7b\"ok\": true\x7d"
  | 5 => "\x7b\"type\":\"finish\",\"answer\":\"done\"\x7d"
  | _ => ""

/-- A one-member roster with maxRounds 1 and no retries. -/
def c3Cfg : LTConfig := ⟨[⟨"m1", "M One"⟩], some 1, none, some 0⟩

/-- An oracle whose round-1 decision is an ask_member action naming the
unknown member ghost. -/
def c3Resp : Nat → String
  | 0 => "no plan json"
  | 1 => "\x7b\"type\":\"ask_member\",\"memberId\":\"ghost\",\"message\":\"x\"\x7d"
  | 2 => "member reply hello"
  | 3 => "\x7b\"ok\": true\x7d"
  | 4 => "\x7b\"type\":\"finish\",\"answer\":\"A\"\x7d"
  | _ => ""

/-- An oracle whose round-1 decision asks with action message "do Y"
while the plan assigns "do X". -/
def c10Resp : Nat → String
  | 0 => "\x7b\"type\":\"ask_member\",\"memberId\":\"ghost\",\"message\":\"do Y\"\x7d"
  | 1 => "member says hi"
  | _ => ""

/-! ## Theorems -/

/-- The onDelta sink receives exactly the delta texts, in order, whatever
the accumulator holds. -/
theorem foldl_oneToOneStep_snd (evs : List AdapterEvent) :
    ∀ full sent, (evs.foldl oneToOneStep (full, sent)).2 = sent ++ deltaTexts evs := by
  induction evs with
  | nil => simp [deltaTexts]
  | cons e rest ih =>
    intro full sent
    cases e with
    | delta t => simp [oneToOneStep, deltaTexts, ih]
    | done t => simp [oneToOneStep, deltaTexts, ih]

/-- Over an all-delta sequence the accumulator is the concatenation of the
delta texts appended to its initial value. -/
theorem foldl_oneToOneStep_fst_all_delta (evs : List AdapterEvent)
    (h : ∀ e ∈ evs, ∃ s, e = .delta s) :
    ∀ full sent, (evs.foldl oneToOneStep (full, sent)).1 = full ++ concatAll (deltaTexts evs) := by
  induction evs with
  | nil => simp [deltaTexts, concatAll]
  | cons e rest ih =>
    intro full sent
    obtain ⟨s, rfl⟩ := h e (by simp)
    have ih' := ih (fun e he => h e (by simp [he]))
    simp only [List.foldl_cons, oneToOneStep]
    rw [ih' (full ++ s) (sent ++ [s])]
    simp [deltaTexts, concatAll, String.append_assoc]

/-- C7: runOneToOne returns the text of a final done event when the
sequence ends with one, overriding accumulated deltas; over an all-delta
sequence it returns the in-order concatenation of the delta texts; and it
forwards exactly the delta texts, in order, to the onDelta sink. -/
theorem one_to_one_accumulation (evs : List AdapterEvent) (t : String) :
    (runOneToOne (evs ++ [.done t])).1 = t ∧
    (runOneToOne evs).2 = deltaTexts evs ∧
    ((∀ e ∈ evs, ∃ s, e = .delta s) →
      (runOneToOne evs).1 = concatAll (deltaTexts evs)) := by
  refine ⟨?_, ?_, ?_⟩
  · simp [runOneToOne, List.foldl_append, oneToOneStep]
  · simpa using foldl_oneToOneStep_snd evs "" []
  · intro h
    simpa using foldl_oneToOneStep_fst_all_delta evs h "" []

/-- Witness for C7 at a concrete event sequence. -/
theorem one_to_one_accumulation_witness :
    (runOneToOne [.delta "a", .delta "b", .done "z"]).1 = "z" ∧
    (runOneToOne [.delta "a", .delta "b"]).2 = ["a", "b"] ∧
    (runOneToOne [.delta "a", .delta "b"]).1 = "ab" := by
  have h := one_to_one_accumulation [.delta "a", .delta "b"] "z"
  refine ⟨h.1, ?_, ?_⟩
  · rw [h.2.1]; rfl
  · rw [h.2.2 ?_]
    · rfl
    · intro e he
      simp only [List.mem_cons, List.not_mem_nil, or_false] at he
      rcases he with rfl | rfl
      · exact ⟨_, rfl⟩
      · exact ⟨_, rfl⟩

/-- C9: the mcp_call target resolution of the goal-driven loop always
dispatches to the active server, never to any other server; in particular
a dispatched server carries the action's serverId only when that serverId
matches the active server's id, so serverId never routes elsewhere. -/
theorem server_routing_active_only (active : Option ServerConfig) (sid : Option String) :
    resolveTargetServer active sid = active ∧
    (∀ srv, resolveTargetServer active sid = some srv → active = some srv) ∧
    (∀ srv s, resolveTargetServer active sid = some srv → sid = some s → srv.id = s →
      ∃ a, active = some a ∧ a.id = s) := by
  have hbase : resolveTargetServer active sid = active := by
    simp [resolveTargetServer]
  refine ⟨hbase, ?_, ?_⟩
  · intro srv h
    rw [hbase] at h
    exact h
  · intro srv s h hs hid
    rw [hbase] at h
    exact ⟨srv, h, hid⟩

/-- Witness for C9: a serverId naming a different server still dispatches
to the active server. -/
theorem server_routing_active_only_witness :
    resolveTargetServer (some ⟨"a", "Alpha"⟩) (some "b") = some ⟨"a", "Alpha"⟩ ∧
    (⟨"a", "Alpha"⟩ : ServerConfig).id ≠ "b" := by
  refine ⟨?_, by decide⟩
  exact (server_routing_active_only (some ⟨"a", "Alpha"⟩) (some "b")).1

/-- Counterexample for C8: a transport response that carries an error
member whose value is null is returned as a result, not thrown, so the
claimed throws-exactly-when-an-error-field-is-present biconditional fails
in the only-if direction at this input. -/
theorem call_tool_counterexample :
    callTool ⟨some (.num 5), some .null⟩ = .ok (.num 5) ∧
    (RpcRes.mk (some (.num 5)) (some .null)).error ≠ none := by
  exact ⟨rfl, by simp⟩

/-- C8 (amended): callTool throws exactly when the response's error member
holds a truthy value, with the thrown message String(error); otherwise it
returns the response's result; and the mcp_call turn of the goal-driven
loop catches every such thrown error and injects it as an error-text tool
message, never letting it escape the turn. -/
theorem call_tool_error_handling (res : RpcRes) (active : ServerConfig)
    (tool : String) (input : JSVal) (sid : Option String) :
    ((∃ e, callTool res = .error e) ↔ truthy (res.error.getD .undefined) = true) ∧
    (∀ e, callTool res = .error e → e = jsToString (res.error.getD .undefined)) ∧
    (truthy (res.error.getD .undefined) = false →
      callTool res = .ok (res.result.getD .undefined)) ∧
    (∀ e, callTool res = .error e →
      handleMcpCall (some active) tool input sid res =
        ⟨"tool", "MCP error for " ++ tool ++ ": " ++ e, some "mcp"⟩) ∧
    (handleMcpCall (some active) tool input sid res).role = "tool" := by
  have hresolve : resolveTargetServer (some active) sid = some active := by
    simp [resolveTargetServer]
  by_cases h : truthy (res.error.getD .undefined) = true
  · refine ⟨⟨fun _ => h,
      fun _ => ⟨jsToString (res.error.getD .undefined), by simp [callTool, h]⟩⟩, ?_, ?_, ?_, ?_⟩
    · intro e he
      simp only [callTool, h, if_true] at he
      exact (Except.error.inj he).symm
    · intro hf; rw [h] at hf; cases hf
    · intro e he
      have he' : e = jsToString (res.error.getD .undefined) := by
        simp only [callTool, h, if_true] at he
        exact (Except.error.inj he).symm
      simp [handleMcpCall, hresolve, callTool, h, he']
    · simp [handleMcpCall, hresolve, callTool, h]
  · have hf : truthy (res.error.getD .undefined) = false := by
      cases hb : truthy (res.error.getD .undefined)
      · rfl
      · exact absurd hb h
    refine ⟨⟨?_, fun hc => absurd hc h⟩, ?_, fun _ => by simp [callTool, hf], ?_, ?_⟩
    · rintro ⟨e, he⟩
      simp [callTool, hf] at he
    · intro e he
      simp [callTool, hf] at he
    · intro e he
      simp [callTool, hf] at he
    · simp [handleMcpCall, hresolve, callTool, hf]

/-- Witness for C8 at a concrete erroring response: a timeout error is
thrown and injected as an error-text tool message. -/
theorem call_tool_error_handling_witness :
    callTool ⟨none, some (.str "timeout")⟩ = .error "timeout" ∧
    handleMcpCall (some ⟨"s1", "Srv"⟩) "time" (.obj []) none ⟨none, some (.str "timeout")⟩ =
      ⟨"tool", "MCP error for time: timeout", some "mcp"⟩ := by
  have h := call_tool_error_handling ⟨none, some (.str "timeout")⟩ ⟨"s1", "Srv"⟩ "time" (.obj []) none
  have he : callTool ⟨none, some (.str "timeout")⟩ = .error "timeout" := rfl
  exact ⟨he, h.2.2.2.1 "timeout" he⟩

/-- Counterexample for C5: the goal-driven loop's normalizeAction rejects
an uppercase discriminator that the claimed case-insensitive-after-trim
acceptance would accept, and rejects the legacy action field entirely. -/
theorem normalize_action_counterexample :
    normalizeActionGoal (.obj [("type", .str "THINK"), ("thought", .str "x")]) = none ∧
    jsTrim (jsToLower "THINK") = "think" ∧
    normalizeActionGoal (.obj [("type", .str "think"), ("thought", .str "x")]) =
      some (.think "x") ∧
    normalizeActionGoal (.obj [("action", .str "think"), ("thought", .str "x")]) = none := by
  exact ⟨rfl, by decide, rfl, rfl⟩

/-- C5 (amended): the leader protocol's normalizeAction accepts the type
or legacy action discriminator case-insensitively after trimming and
validates the required fields per variant; the goal-driven protocol's
normalizeAction instead matches the type field by exact equality, with no
trimming, case folding or legacy field; both return null on structural
mismatch and are total. -/
theorem normalize_action_discriminators :
    (∀ s ans, jsTrim (jsToLower s) = "finish" →
      normalizeAction (.obj [("type", .str s), ("answer", .str ans)]) = some (.finish ans)) ∧
    (∀ s mid msg, jsTrim (jsToLower s) = "ask_member" →
      normalizeAction (.obj [("type", .str s), ("memberId", .str mid), ("message", .str msg)]) =
        some (.askMember mid msg)) ∧
    (∀ s ans, jsTrim (jsToLower s) = "finish" →
      normalizeAction (.obj [("action", .str s), ("answer", .str ans)]) = some (.finish ans)) ∧
    (∀ s, normalizeAction (.obj [("type", .str s)]) = none) ∧
    (∀ v, truthy v = false ∨ jsTypeof v ≠ "object" →
      normalizeAction v = none ∧ normalizeActionGoal v = none) ∧
    (∀ th, normalizeActionGoal (.obj [("type", .str "think"), ("thought", .str th)]) =
      some (.think th)) ∧
    (∀ s th, s ≠ "plan" → s ≠ "final" → s ≠ "think" → s ≠ "doc_lookup" → s ≠ "mcp_call" →
      normalizeActionGoal (.obj [("type", .str s), ("thought", .str th)]) = none) ∧
    (∀ ans, normalizeActionGoal (.obj [("action", .str "final"), ("answer", .str ans)]) = none) := by
  refine ⟨?_, ?_, ?_, ?_, ?_, ?_, ?_, ?_⟩
  · intro s ans h
    simp [normalizeAction, actionTypeTag, getField, truthy, jsTypeof, List.lookup, h]
  · intro s mid msg h
    simp [normalizeAction, actionTypeTag, getField, truthy, jsTypeof, List.lookup, h]
  · intro s ans h
    simp [normalizeAction, actionTypeTag, getField, truthy, jsTypeof, List.lookup, h]
  · intro s
    simp only [normalizeAction, actionTypeTag, getField, truthy, jsTypeof, List.lookup]
    split <;> simp_all
  · intro v hv
    rcases hv with hv | hv
    · constructor
      · simp [normalizeAction, hv]
      · simp [normalizeActionGoal, hv]
    · constructor
      · simp [normalizeAction, hv]
      · simp [normalizeActionGoal, hv]
  · intro th
    rfl
  · intro s th h1 h2 h3 h4 h5
    simp [normalizeActionGoal, normalizeActionGoalRest, typeIs, getField, truthy, jsTypeof,
      List.lookup, h1, h2, h3, h4, h5]
  · intro ans
    rfl

/-- Witness for C5 at concrete inputs: the leader normalizer accepts a
padded uppercase discriminator and the legacy action field. -/
theorem normalize_action_discriminators_witness :
    normalizeAction (.obj [("type", .str " FINISH "), ("answer", .str "a")]) =
      some (.finish "a") ∧
    normalizeAction (.obj [("type", .str "Ask_Member"), ("memberId", .str "m"),
      ("message", .str "t")]) = some (.askMember "m" "t") ∧
    normalizeAction (.obj [("action", .str "finisH"), ("answer", .str "b")]) =
      some (.finish "b") ∧
    normalizeAction (.obj [("type", .str "finish")]) = none ∧
    normalizeAction (.str "finish") = none ∧
    normalizeActionGoal (.obj [("type", .str "spin"), ("thought", .str "y")]) = none := by
  have h := normalize_action_discriminators
  exact ⟨h.1 " FINISH " "a" (by decide), h.2.1 "Ask_Member" "m" "t" (by decide),
    h.2.2.1 "finisH" "b" (by decide), h.2.2.2.1 "finish",
    (h.2.2.2.2.1 (.str "finish") (by right; decide)).1,
    h.2.2.2.2.2.2.1 "spin" "y" (by decide) (by decide) (by decide) (by decide) (by decide)⟩

/-- Every assignment surviving the plan filter names an allowed member. -/
theorem dedupFilter_mem_allowed (allowed : List String) :
    ∀ (as' : List Assignment) (seen : List String) (a : Assignment),
      a ∈ dedupFilter allowed as' seen → a.1 ∈ allowed := by
  intro as'
  induction as' with
  | nil => intro seen a h; simp [dedupFilter] at h
  | cons x rest ih =>
    intro seen a h
    simp only [dedupFilter] at h
    split at h
    · rcases List.mem_cons.mp h with rfl | h'
      · rename_i hx; exact hx.1
      · exact ih _ a h'
    · exact ih _ a h

/-- The plan filter never repeats a member id and never emits one that was
already seen. -/
theorem dedupFilter_nodup (allowed : List String) :
    ∀ (as' : List Assignment) (seen : List String),
      ((dedupFilter allowed as' seen).map Prod.fst).Nodup ∧
      ∀ x ∈ (dedupFilter allowed as' seen).map Prod.fst, x ∉ seen := by
  intro as'
  induction as' with
  | nil => intro seen; simp [dedupFilter]
  | cons x rest ih =>
    intro seen
    simp only [dedupFilter]
    split
    · rename_i hx
      obtain ⟨ihn, ihs⟩ := ih (x.1 :: seen)
      refine ⟨?_, ?_⟩
      · simp only [List.map_cons, List.nodup_cons]
        exact ⟨fun hmem => ihs x.1 hmem (by simp), ihn⟩
      · intro y hy
        simp only [List.map_cons, List.mem_cons] at hy
        rcases hy with rfl | hy
        · exact hx.2
        · intro hseen
          exact ihs y hy (by simp [hseen])
    · obtain ⟨ihn, ihs⟩ := ih seen
      exact ⟨ihn, ihs⟩

/-- C2: the session plan contains only configured member ids, without
duplicates, and whenever the planning text yields zero valid assignments
the plan is exactly one empty-message assignment per configured member. -/
theorem plan_fallback_invariant (cfg : LTConfig) (resp : Nat → String)
    (hnd : (cfg.members.map (·.id)).Nodup) :
    (∀ a ∈ sessionPlan cfg resp, a.1 ∈ cfg.members.map (·.id)) ∧
    ((sessionPlan cfg resp).map Prod.fst).Nodup ∧
    (validPlannedAssignments (cfg.members.map (·.id)) (resp 0) = [] →
      sessionPlan cfg resp = cfg.members.map fun m => (m.id, "")) := by
  have hbase_eq : (cfg.members.map (·.id)).map (fun i => ((i, "") : Assignment)) =
      cfg.members.map (fun m => ((m.id, "") : Assignment)) := by
    rw [List.map_map]
    rfl
  have hbase_mem : ∀ a ∈ (cfg.members.map (·.id)).map (fun i => ((i, "") : Assignment)),
      a.1 ∈ cfg.members.map (·.id) := by
    rw [hbase_eq]
    intro a ha
    simp only [List.mem_map] at ha
    obtain ⟨m, hm, rfl⟩ := ha
    exact List.mem_map.mpr ⟨m, hm, rfl⟩
  have hbase_nodup : (((cfg.members.map (·.id)).map
      (fun i => ((i, "") : Assignment))).map Prod.fst).Nodup := by
    simpa [List.map_map, Function.comp] using hnd
  unfold sessionPlan computePlannedAssignments validPlannedAssignments
  cases hp : parsePlan (resp 0) with
  | none =>
    simp only [hp]
    constructor
    · intro a ha
      split at ha <;> exact hbase_mem a ha
    · constructor
      · split <;> exact hbase_nodup
      · intro _
        split <;> exact hbase_eq
  | some as' =>
    simp only [hp]
    by_cases hd : (dedupFilter (cfg.members.map (·.id)) as' []).isEmpty
    · simp only [hd, if_true]
      refine ⟨hbase_mem, hbase_nodup, fun _ => hbase_eq⟩
    · simp only [hd, if_false]
      refine ⟨fun a ha => dedupFilter_mem_allowed _ as' [] a ha,
        (dedupFilter_nodup _ as' []).1, ?_⟩
      intro hempty
      rw [hempty] at hd
      simp at hd

/-- Witness for C2: a plan whose only assignment names an unknown member
yields zero valid assignments and falls back to the default plan. -/
theorem plan_fallback_invariant_witness :
    ((([⟨"a", "A"⟩, ⟨"b", "B"⟩] : List MemberMeta).map (·.id)).Nodup) ∧
    sessionPlan ⟨[⟨"a", "A"⟩, ⟨"b", "B"⟩], none, none, none⟩
      (fun _ => "\x7b\"assignments\": [\x7b\"memberId\": \"ghost\", \"message\": \"m\"\x7d]\x7d") =
      [("a", ""), ("b", "")] := by
  refine ⟨by decide, ?_⟩
  have h := plan_fallback_invariant ⟨[⟨"a", "A"⟩, ⟨"b", "B"⟩], none, none, none⟩
    (fun _ => "\x7b\"assignments\": [\x7b\"memberId\": \"ghost\", \"message\": \"m\"\x7d]\x7d")
    (by decide)
  exact h.2.2 (by decide)

/-- Trace of a verify-call bump. -/
@[simp] theorem bumpVerify_trace (st : VerifySt) :
    (bumpVerify st).trace = st.trace ++ [.verifyCall] := rfl

/-- Steps of a verify-call bump. -/
@[simp] theorem bumpVerify_steps (st : VerifySt) : (bumpVerify st).steps = st.steps := rfl

/-- React count of a verify-call bump. -/
@[simp] theorem bumpVerify_reactCount (st : VerifySt) :
    (bumpVerify st).reactCount = st.reactCount := rfl

/-- Call index of a verify-call bump. -/
@[simp] theorem bumpVerify_callIdx (st : VerifySt) :
    (bumpVerify st).callIdx = st.callIdx + 1 := rfl

/-- Trace of a react update. -/
@[simp] theorem reactUpdate_trace (reason : Option String) (m : MemberMeta)
    (rmsg reply : String) (st : VerifySt) :
    (reactUpdate reason m rmsg reply st).trace = st.trace ++ [.reactCall m.id rmsg] := rfl

/-- Steps of a react update. -/
@[simp] theorem reactUpdate_steps (reason : Option String) (m : MemberMeta)
    (rmsg reply : String) (st : VerifySt) :
    (reactUpdate reason m rmsg reply st).steps = st.steps ++
      [.leaderAction ("VERIFY: " ++ reason.getD "" ++
         "\nREACT -> " ++ m.name ++ " (" ++ m.id ++ "): " ++ rmsg),
       .memberReply m.id m.name rmsg reply] := rfl

/-- React count of a react update. -/
@[simp] theorem reactUpdate_reactCount (reason : Option String) (m : MemberMeta)
    (rmsg reply : String) (st : VerifySt) :
    (reactUpdate reason m rmsg reply st).reactCount = st.reactCount + 1 := rfl

/-- Call index of a react update. -/
@[simp] theorem reactUpdate_callIdx (reason : Option String) (m : MemberMeta)
    (rmsg reply : String) (st : VerifySt) :
    (reactUpdate reason m rmsg reply st).callIdx = st.callIdx + 1 := rfl

/-- The verification sub-loop only appends to the trace and transcript. -/
theorem verifyLoop_appends (resp : Nat → String) (members : List MemberMeta) (reactMax : Nat) :
    ∀ (fuel : Nat) (vp vr : String) (st : VerifySt),
      ∃ tr ss, (verifyLoop resp members reactMax fuel vp vr st).trace = st.trace ++ tr ∧
        (verifyLoop resp members reactMax fuel vp vr st).steps = st.steps ++ ss := by
  intro fuel
  induction fuel with
  | zero => intro vp vr st; exact ⟨[], [], by simp [verifyLoop], by simp [verifyLoop]⟩
  | succ fuel ih =>
    intro vp vr st
    simp only [verifyLoop]
    split
    · exact ⟨[.verifyCall], [], by simp, by simp⟩
    · rename_i v _
      split
      · exact ⟨[.verifyCall], [], by simp, by simp⟩
      · split
        · exact ⟨[.verifyCall], [], by simp, by simp⟩
        · rename_i rid rmsg _
          split
          · exact ⟨[.verifyCall], [], by simp, by simp⟩
          · split
            · exact ⟨[.verifyCall], [], by simp, by simp⟩
            · rename_i m _
              obtain ⟨tr, ss, htr, hss⟩ := ih rmsg (resp (bumpVerify st).callIdx)
                (reactUpdate v.reason m rmsg (resp (bumpVerify st).callIdx) (bumpVerify st))
              refine ⟨[LTCall.verifyCall, LTCall.reactCall m.id rmsg] ++ tr,
                [Step.leaderAction ("VERIFY: " ++ v.reason.getD "" ++
                   "\nREACT -> " ++ m.name ++ " (" ++ m.id ++ "): " ++ rmsg),
                 Step.memberReply m.id m.name rmsg (resp (bumpVerify st).callIdx)] ++ ss,
                ?_, ?_⟩
              · rw [htr]; simp
              · rw [hss]; simp

/-- Through the verification sub-loop, the react entries added to the
trace equal the reactCount increments, no decision entries are added, and
the react budget is respected. -/
theorem verifyLoop_react_count (resp : Nat → String) (members : List MemberMeta)
    (reactMax : Nat) :
    ∀ (fuel : Nat) (vp vr : String) (st : VerifySt),
      ((verifyLoop resp members reactMax fuel vp vr st).trace.countP isReact + st.reactCount =
        st.trace.countP isReact + (verifyLoop resp members reactMax fuel vp vr st).reactCount) ∧
      ((verifyLoop resp members reactMax fuel vp vr st).trace.countP isDecision =
        st.trace.countP isDecision) ∧
      (st.reactCount ≤ reactMax →
        (verifyLoop resp members reactMax fuel vp vr st).reactCount ≤ reactMax) := by
  intro fuel
  induction fuel with
  | zero => intro vp vr st; exact ⟨rfl, rfl, fun h => h⟩
  | succ fuel ih =>
    intro vp vr st
    simp only [verifyLoop]
    split
    · exact ⟨by simp [List.countP_append, isReact], by simp [List.countP_append, isDecision],
        fun h => h⟩
    · rename_i v _
      split
      · exact ⟨by simp [List.countP_append, isReact], by simp [List.countP_append, isDecision],
          fun h => h⟩
      · split
        · exact ⟨by simp [List.countP_append, isReact], by simp [List.countP_append, isDecision],
            fun h => h⟩
        · rename_i rid rmsg _
          split
          · exact ⟨by simp [List.countP_append, isReact],
              by simp [List.countP_append, isDecision], fun h => h⟩
          · split
            · exact ⟨by simp [List.countP_append, isReact],
                by simp [List.countP_append, isDecision], fun h => h⟩
            · rename_i hcnt m _
              obtain ⟨ihr, ihd, ihb⟩ := ih rmsg (resp (bumpVerify st).callIdx)
                (reactUpdate v.reason m rmsg (resp (bumpVerify st).callIdx) (bumpVerify st))
              refine ⟨?_, ?_, ?_⟩
              · simp [List.countP_append, List.countP_cons, isReact] at ihr ⊢
                omega
              · rw [ihd]
                simp [List.countP_append, isDecision]
              · intro _
                apply ihb
                simp only [reactUpdate_reactCount, bumpVerify_reactCount] at *
                omega

/-- Projections of the decision bump. -/
@[simp] theorem bumpDecision_fields (t : String) (st : LoopSt) :
    (bumpDecision t st).round = st.round ∧
    (bumpDecision t st).planIndex = st.planIndex ∧
    (bumpDecision t st).invalidRetries = st.invalidRetries ∧
    (bumpDecision t st).reactCount = st.reactCount ∧
    (bumpDecision t st).steps = st.steps ++ [.leaderAction t] ∧
    (bumpDecision t st).callIdx = st.callIdx + 1 ∧
    (bumpDecision t st).trace = st.trace ++ [.decision] :=
  ⟨rfl, rfl, rfl, rfl, rfl, rfl, rfl⟩

/-- Trace of the decision bump. -/
@[simp] theorem bumpDecision_trace (t : String) (st : LoopSt) :
    (bumpDecision t st).trace = st.trace ++ [.decision] := rfl

/-- Steps of the decision bump. -/
@[simp] theorem bumpDecision_steps (t : String) (st : LoopSt) :
    (bumpDecision t st).steps = st.steps ++ [.leaderAction t] := rfl

/-- React count of the decision bump. -/
@[simp] theorem bumpDecision_reactCount (t : String) (st : LoopSt) :
    (bumpDecision t st).reactCount = st.reactCount := rfl

/-- Round of the decision bump. -/
@[simp] theorem bumpDecision_round (t : String) (st : LoopSt) :
    (bumpDecision t st).round = st.round := rfl

/-- Retry counter of the decision bump. -/
@[simp] theorem bumpDecision_invalidRetries (t : String) (st : LoopSt) :
    (bumpDecision t st).invalidRetries = st.invalidRetries := rfl

/-- Call index of the decision bump. -/
@[simp] theorem bumpDecision_callIdx (t : String) (st : LoopSt) :
    (bumpDecision t st).callIdx = st.callIdx + 1 := rfl

/-- The retry bump only increments the retry counter. -/
@[simp] theorem bumpRetry_fields (st : LoopSt) :
    (bumpRetry st).round = st.round ∧
    (bumpRetry st).invalidRetries = st.invalidRetries + 1 ∧
    (bumpRetry st).trace = st.trace ∧
    (bumpRetry st).steps = st.steps ∧
    (bumpRetry st).reactCount = st.reactCount :=
  ⟨rfl, rfl, rfl, rfl, rfl⟩

/-- Trace of the retry bump. -/
@[simp] theorem bumpRetry_trace (st : LoopSt) : (bumpRetry st).trace = st.trace := rfl

/-- Steps of the retry bump. -/
@[simp] theorem bumpRetry_steps (st : LoopSt) : (bumpRetry st).steps = st.steps := rfl

/-- React count of the retry bump. -/
@[simp] theorem bumpRetry_reactCount (st : LoopSt) :
    (bumpRetry st).reactCount = st.reactCount := rfl

/-- Round of the retry bump. -/
@[simp] theorem bumpRetry_round (st : LoopSt) : (bumpRetry st).round = st.round := rfl

/-- Retry counter of the retry bump. -/
@[simp] theorem bumpRetry_invalidRetries (st : LoopSt) :
    (bumpRetry st).invalidRetries = st.invalidRetries + 1 := rfl

/-- Trace of the ask update. -/
@[simp] theorem askUpdate_trace (m : MemberMeta) (message amsg reply : String) (st : LoopSt) :
    (askUpdate m message amsg reply st).trace = st.trace ++ [.memberCall m.id message] := rfl

/-- Steps of the ask update. -/
@[simp] theorem askUpdate_steps (m : MemberMeta) (message amsg reply : String) (st : LoopSt) :
    (askUpdate m message amsg reply st).steps =
      st.steps ++ [.memberReply m.id m.name amsg reply] := rfl

/-- React count of the ask update. -/
@[simp] theorem askUpdate_reactCount (m : MemberMeta) (message amsg reply : String)
    (st : LoopSt) : (askUpdate m message amsg reply st).reactCount = st.reactCount := rfl

/-- Call index of the ask update. -/
@[simp] theorem askUpdate_callIdx (m : MemberMeta) (message amsg reply : String)
    (st : LoopSt) : (askUpdate m message amsg reply st).callIdx = st.callIdx + 1 := rfl

/-- Fields of the verify-state view of a loop state. -/
@[simp] theorem toVerifySt_fields (st : LoopSt) :
    st.toVerifySt.steps = st.steps ∧ st.toVerifySt.reactCount = st.reactCount ∧
    st.toVerifySt.callIdx = st.callIdx ∧ st.toVerifySt.trace = st.trace :=
  ⟨rfl, rfl, rfl, rfl⟩

/-- Trace of the verify-state view. -/
@[simp] theorem toVerifySt_trace (st : LoopSt) : st.toVerifySt.trace = st.trace := rfl

/-- Steps of the verify-state view. -/
@[simp] theorem toVerifySt_steps (st : LoopSt) : st.toVerifySt.steps = st.steps := rfl

/-- React count of the verify-state view. -/
@[simp] theorem toVerifySt_reactCount (st : LoopSt) :
    st.toVerifySt.reactCount = st.reactCount := rfl

/-- Fields of the merged post-verification state. -/
@[simp] theorem mergeVerify_fields (st : LoopSt) (vs : VerifySt) :
    (mergeVerify st vs).round = st.round + 1 ∧
    (mergeVerify st vs).planIndex = st.planIndex + 1 ∧
    (mergeVerify st vs).invalidRetries = st.invalidRetries ∧
    (mergeVerify st vs).reactCount = vs.reactCount ∧
    (mergeVerify st vs).steps = vs.steps ∧
    (mergeVerify st vs).callIdx = vs.callIdx ∧
    (mergeVerify st vs).trace = vs.trace :=
  ⟨rfl, rfl, rfl, rfl, rfl, rfl, rfl⟩

/-- Trace of the merged post-verification state. -/
@[simp] theorem mergeVerify_trace (st : LoopSt) (vs : VerifySt) :
    (mergeVerify st vs).trace = vs.trace := rfl

/-- Steps of the merged post-verification state. -/
@[simp] theorem mergeVerify_steps (st : LoopSt) (vs : VerifySt) :
    (mergeVerify st vs).steps = vs.steps := rfl

/-- React count of the merged post-verification state. -/
@[simp] theorem mergeVerify_reactCount (st : LoopSt) (vs : VerifySt) :
    (mergeVerify st vs).reactCount = vs.reactCount := rfl

/-- Round of the merged post-verification state. -/
@[simp] theorem mergeVerify_round (st : LoopSt) (vs : VerifySt) :
    (mergeVerify st vs).round = st.round + 1 := rfl

/-- Retry counter of the merged post-verification state. -/
@[simp] theorem mergeVerify_invalidRetries (st : LoopSt) (vs : VerifySt) :
    (mergeVerify st vs).invalidRetries = st.invalidRetries := rfl

/-- The sub-loop's fuel only matters below the code's own termination
measure: any two fuels above reactMax - reactCount give the same result,
so the fuel chosen at the call site runs the loop to its own exit. -/
theorem verifyLoop_fuel_irrel (resp : Nat → String) (members : List MemberMeta)
    (reactMax : Nat) :
    ∀ (f1 f2 : Nat) (vp vr : String) (st : VerifySt),
      reactMax - st.reactCount < f1 → reactMax - st.reactCount < f2 →
      verifyLoop resp members reactMax f1 vp vr st =
        verifyLoop resp members reactMax f2 vp vr st := by
  intro f1
  induction f1 with
  | zero => intro f2 vp vr st h1 h2; omega
  | succ f1 ih =>
    intro f2 vp vr st h1 h2
    obtain ⟨g2, rfl⟩ : ∃ g, f2 = g + 1 := ⟨f2 - 1, by omega⟩
    simp only [verifyLoop]
    split
    · rfl
    · split
      · rfl
      · split
        · rfl
        · rename_i rid rmsg _
          split
          · rfl
          · split
            · rfl
            · rename_i hguard m _
              apply ih
              · simp only [reactUpdate_reactCount, bumpVerify_reactCount] at *
                omega
              · simp only [reactUpdate_reactCount, bumpVerify_reactCount] at *
                omega

/-- The verification sub-loop adds no decision entries to the trace. -/
theorem verifyLoop_countDecision (resp : Nat → String) (members : List MemberMeta)
    (reactMax fuel : Nat) (vp vr : String) (st : VerifySt) :
    (verifyLoop resp members reactMax fuel vp vr st).trace.countP isDecision =
      st.trace.countP isDecision :=
  (verifyLoop_react_count resp members reactMax fuel vp vr st).2.1

/-- Entering the sub-loop with a trace whose react entries equal the react
counter preserves that equality. -/
theorem verifyLoop_entry_inv (resp : Nat → String) (members : List MemberMeta)
    (reactMax fuel : Nat) (vp vr : String) (st : VerifySt)
    (h : st.trace.countP isReact = st.reactCount) :
    (verifyLoop resp members reactMax fuel vp vr st).trace.countP isReact =
      (verifyLoop resp members reactMax fuel vp vr st).reactCount := by
  have hv := (verifyLoop_react_count resp members reactMax fuel vp vr st).1
  omega

/-- The sub-loop never pushes the react counter past the budget. -/
theorem verifyLoop_reactCount_le (resp : Nat → String) (members : List MemberMeta)
    (reactMax fuel : Nat) (vp vr : String) (st : VerifySt)
    (h : st.reactCount ≤ reactMax) :
    (verifyLoop resp members reactMax fuel vp vr st).reactCount ≤ reactMax :=
  (verifyLoop_react_count resp members reactMax fuel vp vr st).2.2 h

/-- The round loop only appends to the trace and transcript. -/
theorem mainLoop_appends (resp : Nat → String) (members : List MemberMeta)
    (maxRounds reactMax retryMax : Nat) (planned : List Assignment) :
    ∀ (fuel : Nat) (st : LoopSt),
      ∃ tr ss,
        (mainLoop resp members maxRounds reactMax retryMax planned fuel st).trace =
          st.trace ++ tr ∧
        (mainLoop resp members maxRounds reactMax retryMax planned fuel st).steps =
          st.steps ++ ss := by
  intro fuel
  induction fuel with
  | zero => intro st; exact ⟨[], [], by simp [mainLoop], by simp [mainLoop]⟩
  | succ fuel ih =>
    intro st
    simp only [mainLoop]
    split
    · exact ⟨[.forcedFinal], [], rfl, by simp⟩
    · split
      · split
        · obtain ⟨tr, ss, htr, hss⟩ := ih (bumpRetry (bumpDecision (resp st.callIdx) st))
          rw [htr, hss]
          exact ⟨[.decision] ++ tr, [.leaderAction (resp st.callIdx)] ++ ss, by simp, by simp⟩
        · exact ⟨[.decision], [.leaderAction (resp st.callIdx)], by simp, by simp⟩
      · exact ⟨[.decision, .finalVerify], [.leaderAction (resp st.callIdx)], by simp, by simp⟩
      · rename_i aid amsg heqa
        split
        · exact ⟨[.decision], [.leaderAction (resp st.callIdx)], by simp, by simp⟩
        · rename_i m _
          obtain ⟨vtr, vss, hvtr, hvss⟩ := verifyLoop_appends resp members reactMax
            (reactMax + 1 - (askUpdate m (askMessage (nextAssignmentOf planned st.planIndex) amsg)
              amsg (resp (bumpDecision (resp st.callIdx) st).callIdx)
              (bumpDecision (resp st.callIdx) st)).reactCount)
            (askMessage (nextAssignmentOf planned st.planIndex) amsg)
            (resp (bumpDecision (resp st.callIdx) st).callIdx)
            (askUpdate m (askMessage (nextAssignmentOf planned st.planIndex) amsg)
              amsg (resp (bumpDecision (resp st.callIdx) st).callIdx)
              (bumpDecision (resp st.callIdx) st)).toVerifySt
          obtain ⟨tr, ss, htr, hss⟩ := ih (mergeVerify (bumpDecision (resp st.callIdx) st)
            (verifyLoop resp members reactMax
              (reactMax + 1 - (askUpdate m (askMessage (nextAssignmentOf planned st.planIndex)
                amsg) amsg (resp (bumpDecision (resp st.callIdx) st).callIdx)
                (bumpDecision (resp st.callIdx) st)).reactCount)
              (askMessage (nextAssignmentOf planned st.planIndex) amsg)
              (resp (bumpDecision (resp st.callIdx) st).callIdx)
              (askUpdate m (askMessage (nextAssignmentOf planned st.planIndex) amsg)
                amsg (resp (bumpDecision (resp st.callIdx) st).callIdx)
                (bumpDecision (resp st.callIdx) st)).toVerifySt))
          rw [htr, hss]
          simp only [mergeVerify_trace, mergeVerify_steps, hvtr, hvss]
          refine ⟨[LTCall.decision,
              LTCall.memberCall m.id (askMessage (nextAssignmentOf planned st.planIndex) amsg)]
              ++ vtr ++ tr,
            [Step.leaderAction (resp st.callIdx),
             Step.memberReply m.id m.name amsg
               (resp (bumpDecision (resp st.callIdx) st).callIdx)] ++ vss ++ ss,
            ?_, ?_⟩ <;> simp

/-- Through the round loop the react entries of the trace track the react
counter, so the react budget bounds them across the whole session. -/
theorem mainLoop_react_inv (resp : Nat → String) (members : List MemberMeta)
    (maxRounds reactMax retryMax : Nat) (planned : List Assignment) :
    ∀ (fuel : Nat) (st : LoopSt),
      st.trace.countP isReact = st.reactCount → st.reactCount ≤ reactMax →
      (mainLoop resp members maxRounds reactMax retryMax planned fuel st).trace.countP isReact ≤
        reactMax := by
  intro fuel
  induction fuel with
  | zero => intro st heq hle; simpa [mainLoop, heq] using hle
  | succ fuel ih =>
    intro st heq hle
    simp only [mainLoop]
    split
    · simpa [List.countP_append, isReact, heq] using hle
    · split
      · split
        · exact ih _ (by simp [List.countP_append, isReact, heq]) (by simpa using hle)
        · simpa [List.countP_append, isReact, heq] using hle
      · simpa [List.countP_append, isReact, heq] using hle
      · rename_i aid amsg heqa
        split
        · simpa [List.countP_append, isReact, heq] using hle
        · rename_i m _
          apply ih
          · simp only [mergeVerify_trace, mergeVerify_reactCount]
            apply verifyLoop_entry_inv
            simp [List.countP_append, isReact, heq]
          · simp only [mergeVerify_reactCount]
            apply verifyLoop_reactCount_le
            simpa using hle

/-- C4: across one entire leader-team session the protocol performs at
most reactMax react member invocations, counting every verification
sub-loop of every round together; and reactMax defaults to 2. -/
theorem react_budget_bound (cfg : LTConfig) (resp : Nat → String) :
    (runLeaderTeam cfg resp).trace.countP isReact ≤ cfg.reactMax ∧
    (cfg.reactMaxOpt = none → cfg.reactMax = 2) := by
  constructor
  · apply mainLoop_react_inv
    · simp [isReact]
    · exact Nat.zero_le _
  · intro h
    simp [LTConfig.reactMax, h]

/-- Witness for C4 at a concrete session with the default react budget. -/
theorem react_budget_bound_witness :
    (runLeaderTeam ⟨[⟨"m1", "M"⟩], none, none, none⟩ fun _ => "").trace.countP isReact ≤
      (⟨[⟨"m1", "M"⟩], none, none, none⟩ : LTConfig).reactMax ∧
    (⟨[⟨"m1", "M"⟩], none, none, none⟩ : LTConfig).reactMax = 2 := by
  have h := react_budget_bound ⟨[⟨"m1", "M"⟩], none, none, none⟩ (fun _ => "")
  exact ⟨h.1, h.2 rfl⟩

/-- Each main-loop iteration either issues one decision call and consumes
a unit of the round budget or of the retry budget, or stops, so the
decision calls are bounded by the two budgets together. -/
theorem mainLoop_decision_bound (resp : Nat → String) (members : List MemberMeta)
    (maxRounds reactMax retryMax : Nat) (planned : List Assignment) :
    ∀ (fuel : Nat) (st : LoopSt),
      (mainLoop resp members maxRounds reactMax retryMax planned fuel st).trace.countP
          isDecision ≤
        st.trace.countP isDecision + (maxRounds + 1 - st.round) +
          (retryMax - st.invalidRetries) := by
  intro fuel
  induction fuel with
  | zero => intro st; simp only [mainLoop]; omega
  | succ fuel ih =>
    intro st
    simp only [mainLoop]
    split
    · simp only [List.countP_append]
      simp [isDecision]
      omega
    · rename_i hround
      split
      · split
        · rename_i hretry
          have h := ih (bumpRetry (bumpDecision (resp st.callIdx) st))
          simp only [bumpRetry_trace, bumpRetry_round, bumpRetry_invalidRetries,
            bumpDecision_trace, bumpDecision_round, bumpDecision_invalidRetries,
            List.countP_append] at h
          simp only [bumpDecision_invalidRetries] at hretry
          simp [isDecision] at h ⊢
          omega
        · simp [List.countP_append, isDecision]
          omega
      · simp [List.countP_append, isDecision]
        omega
      · rename_i aid amsg heqa
        split
        · simp [List.countP_append, isDecision]
          omega
        · rename_i m heqm
          have h := ih (mergeVerify (bumpDecision (resp st.callIdx) st)
            (verifyLoop resp members reactMax
              (reactMax + 1 - (askUpdate m (askMessage (nextAssignmentOf planned st.planIndex)
                amsg) amsg (resp (bumpDecision (resp st.callIdx) st).callIdx)
                (bumpDecision (resp st.callIdx) st)).reactCount)
              (askMessage (nextAssignmentOf planned st.planIndex) amsg)
              (resp (bumpDecision (resp st.callIdx) st).callIdx)
              (askUpdate m (askMessage (nextAssignmentOf planned st.planIndex) amsg)
                amsg (resp (bumpDecision (resp st.callIdx) st).callIdx)
                (bumpDecision (resp st.callIdx) st)).toVerifySt))
          rw [mergeVerify_trace, verifyLoop_countDecision] at h
          simp only [mergeVerify_round, mergeVerify_invalidRetries, bumpDecision_round,
            bumpDecision_invalidRetries, toVerifySt_trace, askUpdate_trace,
            bumpDecision_trace, List.countP_append] at h
          simp [isDecision] at h ⊢
          omega

/-- The fuel given to the round loop is sufficient: with the measure of
the code's own termination argument below the fuel, the loop always exits
through one of the code's return paths, never by fuel exhaustion. -/
theorem mainLoop_fuel_sufficient (resp : Nat → String) (members : List MemberMeta)
    (maxRounds reactMax retryMax : Nat) (planned : List Assignment) :
    ∀ (fuel : Nat) (st : LoopSt),
      (maxRounds + 1 - st.round) + (retryMax - st.invalidRetries) < fuel →
      (mainLoop resp members maxRounds reactMax retryMax planned fuel st).kind ≠
        TermKind.fuelOut := by
  intro fuel
  induction fuel with
  | zero => intro st h; omega
  | succ fuel ih =>
    intro st h
    simp only [mainLoop]
    split
    · simp
    · rename_i hround
      split
      · split
        · rename_i hretry
          apply ih
          simp only [bumpRetry_round, bumpRetry_invalidRetries, bumpDecision_round,
            bumpDecision_invalidRetries] at *
          omega
        · simp
      · simp
      · rename_i aid amsg heqa
        split
        · simp
        · rename_i m heqm
          apply ih
          simp only [mergeVerify_round, mergeVerify_invalidRetries, bumpDecision_round,
            bumpDecision_invalidRetries] at *
          omega

/-- A leader-team session always ends through one of the code's own
terminations: the fuel of the embedding is never exhausted. -/
theorem runLeaderTeam_terminates (cfg : LTConfig) (resp : Nat → String) :
    (runLeaderTeam cfg resp).kind ≠ TermKind.fuelOut := by
  apply mainLoop_fuel_sufficient
  show (cfg.maxRounds + 1 - 1) + (cfg.retryMax - 0) < cfg.maxRounds + cfg.retryMax + 1
  omega

/-- Counterexample for C1: with maxRounds 1 but one invalid-action retry,
the session issues two main-round leader decision calls before the forced
finalization call, exceeding the claimed bound of one. -/
theorem round_bound_counterexample :
    c1Cfg.maxRounds = 1 ∧
    (runLeaderTeam c1Cfg c1Resp).kind = .forced ∧
    LTCall.forcedFinal ∈ (runLeaderTeam c1Cfg c1Resp).trace ∧
    decisionsBeforeForced (runLeaderTeam c1Cfg c1Resp).trace = 2 := by
  refine ⟨rfl, rfl, by decide, rfl⟩

/-- C1 (amended): for maxRounds N and invalid-action retry budget
retryMax, a session issues at most N + retryMax main-round leader
decision calls before the forced finalization; with retryMax 0 this is
the claimed bound N. -/
theorem round_bound_with_retries (cfg : LTConfig) (resp : Nat → String) :
    decisionsBeforeForced (runLeaderTeam cfg resp).trace ≤ cfg.maxRounds + cfg.retryMax ∧
    (cfg.retryMaxOpt = none ∨ cfg.retryMaxOpt = some 0 →
      decisionsBeforeForced (runLeaderTeam cfg resp).trace ≤ cfg.maxRounds) := by
  have hb : (runLeaderTeam cfg resp).trace.countP isDecision ≤
      cfg.maxRounds + cfg.retryMax := by
    have h := mainLoop_decision_bound resp cfg.members cfg.maxRounds cfg.reactMax
      cfg.retryMax (computePlannedAssignments (cfg.members.map (·.id)) (resp 0))
      (cfg.maxRounds + cfg.retryMax + 1) ⟨1, 0, 0, 0, [], 1, [.planCall]⟩
    simpa [runLeaderTeam, isDecision] using h
  have hw : decisionsBeforeForced (runLeaderTeam cfg resp).trace ≤
      (runLeaderTeam cfg resp).trace.countP isDecision :=
    List.Sublist.countP_le _ (List.takeWhile_sublist _)
  constructor
  · omega
  · intro h
    have hz : cfg.retryMax = 0 := by
      rcases h with h | h <;> simp [LTConfig.retryMax, h]
    omega

/-- Witness for C1 (amended) at a concrete session whose retry budget is
zero, where the original bound holds. -/
theorem round_bound_with_retries_witness :
    decisionsBeforeForced (runLeaderTeam c3Cfg c3Resp).trace ≤
      c3Cfg.maxRounds + c3Cfg.retryMax ∧
    decisionsBeforeForced (runLeaderTeam c3Cfg c3Resp).trace ≤ c3Cfg.maxRounds := by
  have h := round_bound_with_retries c3Cfg c3Resp
  exact ⟨h.1, h.2 (Or.inr rfl)⟩

/-- Every assignment of the computed plan names a configured member. -/
theorem computePlannedAssignments_mem (memberIds : List String) (t : String) :
    ∀ a ∈ computePlannedAssignments memberIds t, a.1 ∈ memberIds := by
  intro a ha
  unfold computePlannedAssignments at ha
  cases hp : parsePlan t with
  | none =>
    simp only [hp] at ha
    split at ha <;>
    · simp only [List.mem_map] at ha
      obtain ⟨i, hi, rfl⟩ := ha
      exact hi
  | some as' =>
    simp only [hp] at ha
    split at ha
    · simp only [List.mem_map] at ha
      obtain ⟨i, hi, rfl⟩ := ha
      exact hi
    · exact dedupFilter_mem_allowed memberIds as' [] a ha

/-- With at least one configured member the computed plan is non-empty. -/
theorem computePlannedAssignments_ne_nil (memberIds : List String) (t : String)
    (h : memberIds ≠ []) : computePlannedAssignments memberIds t ≠ [] := by
  have hbase : memberIds.map (fun i => ((i, "") : Assignment)) ≠ [] := by
    simpa using h
  cases hp : parsePlan t with
  | none =>
    simp only [computePlannedAssignments, hp]
    split
    · exact hbase
    · exact hbase
  | some as' =>
    simp only [computePlannedAssignments, hp]
    split
    · exact hbase
    · rename_i hne
      intro hcon
      rw [hcon] at hne
      simp at hne

/-- A member id drawn from the roster resolves in the member index. -/
theorem memberLookup_of_mem (members : List MemberMeta) (mid : String)
    (h : mid ∈ members.map (·.id)) : ∃ m, memberLookup members mid = some m := by
  simp only [List.mem_map] at h
  obtain ⟨m, hm, rfl⟩ := h
  have hx : ∃ x ∈ members.reverse, (decide (x.id = m.id)) = true :=
    ⟨m, by simpa using hm, by simp⟩
  have := List.find?_isSome.mpr hx
  obtain ⟨m', hm'⟩ := Option.isSome_iff_exists.mp this
  exact ⟨m', hm'⟩

/-- With a non-empty plan the next assignment always exists and is drawn
from the plan. -/
theorem nextAssignmentOf_mem (planned : List Assignment) (i : Nat) (h : planned ≠ []) :
    ∃ a, nextAssignmentOf planned i = some a ∧ a ∈ planned := by
  unfold nextAssignmentOf
  cases hg : planned.get? i with
  | some a => exact ⟨a, by simp [Option.orElse], List.get?_mem hg⟩
  | none =>
    cases hl : planned.getLast? with
    | none =>
      exact absurd (List.getLast?_eq_none_iff.mp hl) h
    | some a =>
      refine ⟨a, by simp [Option.orElse, hl], ?_⟩
      obtain ⟨hne', heq⟩ := List.mem_getLast?_eq_getLast (l := planned) (x := a)
        (by rw [hl]; rfl)
      rw [heq]
      exact List.getLast_mem hne'

/-- With a non-empty plan over known member ids the round loop can never
take the unknown-member termination path. -/
theorem mainLoop_no_unknown (resp : Nat → String) (members : List MemberMeta)
    (maxRounds reactMax retryMax : Nat) (planned : List Assignment)
    (hne : planned ≠ []) (hsub : ∀ a ∈ planned, a.1 ∈ members.map (·.id)) :
    ∀ (fuel : Nat) (st : LoopSt),
      (mainLoop resp members maxRounds reactMax retryMax planned fuel st).kind ≠
        TermKind.unknownMember := by
  intro fuel
  induction fuel with
  | zero =>
    intro st
    simp [mainLoop]
  | succ fuel ih =>
    intro st
    simp only [mainLoop]
    split
    · simp
    · split
      · split
        · exact ih _
        · simp
      · simp
      · rename_i aid amsg heqa
        split
        · rename_i heqm
          obtain ⟨a, hna, hmem⟩ := nextAssignmentOf_mem planned st.planIndex hne
          obtain ⟨m, hm⟩ := memberLookup_of_mem members a.1 (hsub a hmem)
          rw [hna] at heqm
          simp at heqm
          rw [heqm] at hm
          cases hm
        · rename_i m heqm
          exact ih _

/-- Counterexample for C3: a round-1 ask_member action naming the unknown
member ghost does not terminate the session with the raw leader text; the
planned member m1 is invoked and the session runs to forced finalization
with a different answer. -/
theorem unknown_member_counterexample :
    parseAction (c3Resp 1) = some (.askMember "ghost" "x") ∧
    memberLookup c3Cfg.members "ghost" = none ∧
    LTCall.memberCall "m1" "x" ∈ (runLeaderTeam c3Cfg c3Resp).trace ∧
    (runLeaderTeam c3Cfg c3Resp).kind = .forced ∧
    (runLeaderTeam c3Cfg c3Resp).answer = "A" ∧
    (runLeaderTeam c3Cfg c3Resp).answer ≠ c3Resp 1 := by
  refine ⟨rfl, rfl, by decide, rfl, rfl, by decide⟩

/-- C3 (amended): with at least one configured member the unknown-member
termination path is unreachable for every oracle: the asked member is
resolved from the plan, whose ids are always configured members, so the
action's unknown memberId is ignored and the session proceeds. -/
theorem unknown_member_unreachable (cfg : LTConfig) (resp : Nat → String)
    (h : cfg.members ≠ []) :
    (runLeaderTeam cfg resp).kind ≠ TermKind.unknownMember := by
  apply mainLoop_no_unknown
  · apply computePlannedAssignments_ne_nil
    simpa using h
  · exact computePlannedAssignments_mem _ _

/-- Witness for C3 at the concrete ghost session. -/
theorem unknown_member_unreachable_witness :
    (runLeaderTeam c3Cfg c3Resp).kind ≠ TermKind.unknownMember :=
  unknown_member_unreachable c3Cfg c3Resp (by decide)

/-- C10: in a round whose leader action is an ask_member handled with a
resolved member, the message sent to the member (recorded in the call
trace) is the trimmed planned assignment message when non-empty and the
action's message otherwise, while the member_reply transcript step always
records the action's message as its prompt — so the recorded prompt can
differ from the message actually sent. -/
theorem member_prompt_recording (resp : Nat → String) (members : List MemberMeta)
    (maxRounds reactMax retryMax : Nat) (planned : List Assignment) (fuel : Nat)
    (st : LoopSt) (aid amsg : String) (m : MemberMeta)
    (hr : ¬ st.round > maxRounds)
    (hp : parseAction (resp st.callIdx) = some (.askMember aid amsg))
    (hm : memberLookup members
      ((Option.map Prod.fst (nextAssignmentOf planned st.planIndex)).getD aid) = some m) :
    ∃ tr ss,
      (mainLoop resp members maxRounds reactMax retryMax planned (fuel + 1) st).trace =
        st.trace ++ [.decision,
          .memberCall m.id (askMessage (nextAssignmentOf planned st.planIndex) amsg)] ++ tr ∧
      (mainLoop resp members maxRounds reactMax retryMax planned (fuel + 1) st).steps =
        st.steps ++ [.leaderAction (resp st.callIdx),
          .memberReply m.id m.name amsg (resp (st.callIdx + 1))] ++ ss ∧
      (∀ mid pm, nextAssignmentOf planned st.planIndex = some (mid, pm) →
        (jsTrim pm ≠ "" →
          askMessage (nextAssignmentOf planned st.planIndex) amsg = jsTrim pm) ∧
        (jsTrim pm = "" →
          askMessage (nextAssignmentOf planned st.planIndex) amsg = amsg)) := by
  have hask : ∀ mid pm, nextAssignmentOf planned st.planIndex = some (mid, pm) →
      (jsTrim pm ≠ "" →
        askMessage (nextAssignmentOf planned st.planIndex) amsg = jsTrim pm) ∧
      (jsTrim pm = "" →
        askMessage (nextAssignmentOf planned st.planIndex) amsg = amsg) := by
    intro mid pm hna
    rw [hna]
    constructor
    · intro hne
      simp [askMessage, hne]
    · intro he
      simp [askMessage, he]
  simp only [mainLoop, if_neg hr, hp, hm]
  obtain ⟨vtr, vss, hvtr, hvss⟩ := verifyLoop_appends resp members reactMax
    (reactMax + 1 - (askUpdate m (askMessage (nextAssignmentOf planned st.planIndex) amsg)
      amsg (resp (bumpDecision (resp st.callIdx) st).callIdx)
      (bumpDecision (resp st.callIdx) st)).reactCount)
    (askMessage (nextAssignmentOf planned st.planIndex) amsg)
    (resp (bumpDecision (resp st.callIdx) st).callIdx)
    (askUpdate m (askMessage (nextAssignmentOf planned st.planIndex) amsg)
      amsg (resp (bumpDecision (resp st.callIdx) st).callIdx)
      (bumpDecision (resp st.callIdx) st)).toVerifySt
  obtain ⟨tr, ss, htr, hss⟩ := mainLoop_appends resp members maxRounds reactMax retryMax
    planned fuel (mergeVerify (bumpDecision (resp st.callIdx) st)
      (verifyLoop resp members reactMax
        (reactMax + 1 - (askUpdate m (askMessage (nextAssignmentOf planned st.planIndex)
          amsg) amsg (resp (bumpDecision (resp st.callIdx) st).callIdx)
          (bumpDecision (resp st.callIdx) st)).reactCount)
        (askMessage (nextAssignmentOf planned st.planIndex) amsg)
        (resp (bumpDecision (resp st.callIdx) st).callIdx)
        (askUpdate m (askMessage (nextAssignmentOf planned st.planIndex) amsg)
          amsg (resp (bumpDecision (resp st.callIdx) st).callIdx)
          (bumpDecision (resp st.callIdx) st)).toVerifySt))
  rw [htr, hss]
  simp only [mergeVerify_trace, mergeVerify_steps, hvtr, hvss]
  refine ⟨vtr ++ tr,
    vss ++ ss, ?_, ?_, hask⟩ <;> simp

/-- Witness for C10 at a concrete round: the plan assigns "do X", the
action says "do Y"; the member is called with "do X" while the transcript
step records "do Y" as the prompt. -/
theorem member_prompt_recording_witness :
    askMessage (nextAssignmentOf [("m1", "do X")] 0) "do Y" = "do X" ∧
    "do X" ≠ "do Y" ∧
    ∃ tr ss,
      (mainLoop c10Resp [⟨"m1", "M"⟩] 1 2 0 [("m1", "do X")] (0 + 1)
          ⟨1, 0, 0, 0, [], 0, []⟩).trace =
        ([] : List LTCall) ++ [.decision,
          .memberCall (MemberMeta.mk "m1" "M").id
            (askMessage (nextAssignmentOf [("m1", "do X")] (LoopSt.mk 1 0 0 0 [] 0 []).planIndex)
              "do Y")] ++ tr ∧
      (mainLoop c10Resp [⟨"m1", "M"⟩] 1 2 0 [("m1", "do X")] (0 + 1)
          ⟨1, 0, 0, 0, [], 0, []⟩).steps =
        ([] : List Step) ++ [.leaderAction (c10Resp 0),
          .memberReply "m1" "M" "do Y" (c10Resp (0 + 1))] ++ ss ∧
      (∀ mid pm, nextAssignmentOf [("m1", "do X")] (LoopSt.mk 1 0 0 0 [] 0 []).planIndex =
          some (mid, pm) →
        (jsTrim pm ≠ "" →
          askMessage (nextAssignmentOf [("m1", "do X")]
            (LoopSt.mk 1 0 0 0 [] 0 []).planIndex) "do Y" = jsTrim pm) ∧
        (jsTrim pm = "" →
          askMessage (nextAssignmentOf [("m1", "do X")]
            (LoopSt.mk 1 0 0 0 [] 0 []).planIndex) "do Y" = "do Y")) := by
  refine ⟨by decide, by decide, ?_⟩
  exact member_prompt_recording c10Resp [⟨"m1", "M"⟩] 1 2 0 [("m1", "do X")] 0
    ⟨1, 0, 0, 0, [], 0, []⟩ "ghost" "do Y" ⟨"m1", "M"⟩ (by decide) (by decide) (by decide)

/-- A plain character is none of the structural characters of the two
renderings and is not a control character. -/
theorem plainChar_spec (c : Char) (h : plainChar c = true) :
    c ≠ '"' ∧ c ≠ '\\' ∧ c ≠ ',' ∧ c ≠ '\x7b' ∧ c ≠ '\x7d' ∧ c ≠ ']' ∧
    c ≠ '“' ∧ c ≠ '”' ∧ c ≠ '‘' ∧ c ≠ '’' ∧ ¬ (c.toNat < 32) := by
  have hne : ∀ d : Char, plainChar d = false → c ≠ d := by
    intro d hd he
    subst he
    rw [h] at hd
    cases hd
  refine ⟨hne _ (by decide), hne _ (by decide), hne _ (by decide), hne _ (by decide),
    hne _ (by decide), hne _ (by decide), hne _ (by decide), hne _ (by decide),
    hne _ (by decide), hne _ (by decide), ?_⟩
  simp [plainChar, Char.isAlphanum, Char.isAlpha, Char.isDigit, Char.isUpper,
    Char.isLower] at h
  rcases h with ((⟨h1, _⟩ | ⟨h1, _⟩) | ⟨h1, _⟩) | rfl
  · have h3 : (65 : UInt32).toNat ≤ c.val.toNat := h1
    have h4 : (65 : UInt32).toNat = 65 := rfl
    simp [Char.toNat]
    omega
  · have h3 : (97 : UInt32).toNat ≤ c.val.toNat := h1
    have h4 : (97 : UInt32).toNat = 97 := rfl
    simp [Char.toNat]
    omega
  · have h3 : (48 : UInt32).toNat ≤ c.val.toNat := h1
    have h4 : (48 : UInt32).toNat = 48 := rfl
    simp [Char.toNat]
    omega
  · decide

/-- Rebuilding a string from its characters is the identity. -/
theorem mkData_eq (s : String) : (⟨s.data⟩ : String) = s := rfl

/-- Quote normalization fixes every plain character. -/
theorem smartQuoteFix_plain (c : Char) (h : plainChar c = true) : smartQuoteFix c = c := by
  obtain ⟨_, _, _, _, _, _, h1, h2, h3, h4, _⟩ := plainChar_spec c h
  simp [smartQuoteFix, h1, h2, h3, h4]

/-- Quote normalization fixes every plain string. -/
theorem map_smartQuoteFix_plain (k : List Char) (hk : ∀ c ∈ k, plainChar c = true) :
    k.map smartQuoteFix = k := by
  induction k with
  | nil => rfl
  | cons c k' ih =>
    simp only [List.map_cons, smartQuoteFix_plain c (hk c (by simp)),
      ih (fun c hc => hk c (by simp [hc])), List.cons.injEq, and_self]

/-- One step of parseVal at an opening brace. -/
theorem parseVal_brace (f : Nat) (l : List Char) :
    parseVal (f + 1) ('\x7b' :: l) = parseObjBody f l := rfl

/-- One step of parseVal at an opening quote. -/
theorem parseVal_quote (f : Nat) (l : List Char) :
    parseVal (f + 1) ('"' :: l) =
      (parseStrBody l).map fun p => (JSVal.str ⟨p.1⟩, p.2) := rfl

/-- parseVal skips a leading space. -/
theorem parseVal_space (f : Nat) (l : List Char) :
    parseVal (f + 1) (' ' :: l) = parseVal (f + 1) l := rfl

/-- parseObjMore skips a leading space. -/
theorem parseObjMore_space (f : Nat) (l : List Char) :
    parseObjMore (f + 1) (' ' :: l) = parseObjMore (f + 1) l := rfl

/-- At an opening quote parseObjBody proceeds exactly as parseObjMore. -/
theorem parseObjBody_quote (f : Nat) (l : List Char) :
    parseObjBody (f + 1) ('"' :: l) = memberStep f l := rfl

/-- At an opening quote parseObjMore parses one member and continues. -/
theorem parseObjMore_quote (f : Nat) (l : List Char) :
    parseObjMore (f + 1) ('"' :: l) = memberStep f l := rfl

/-- A curly smart quote opens no JSON object member. -/
theorem parseObjBody_smart (f : Nat) (l : List Char) :
    parseObjBody (f + 1) ('“' :: l) = none := rfl

/-- The body of a quoted literal of plain characters parses to exactly
those characters, leaving the remainder after the closing quote. -/
theorem parseStrBody_plain (k : List Char) (hk : ∀ c ∈ k, plainChar c = true) :
    ∀ rest, parseStrBody (k ++ ('"' :: rest)) = some (k, rest) := by
  induction k with
  | nil =>
    intro rest
    rw [List.nil_append, parseStrBody.eq_def]
    simp
  | cons c k' ih =>
    intro rest
    have hc := hk c (by simp)
    obtain ⟨hq, hbs, _, _, _, _, _, _, _, _, hge⟩ := plainChar_spec c hc
    rw [List.cons_append, parseStrBody.eq_def]
    simp [hq, hbs, hge, ih (fun d hd => hk d (by simp [hd])) rest]

/-- No character of a strictly rendered member is a comma. -/
theorem strictMemChars_ne_comma (p : String × String) (h1 : plainStr p.1 = true)
    (h2 : plainStr p.2 = true) : ∀ c ∈ strictMemChars p, c ≠ ',' := by
  intro c hc he
  subst he
  have hk := List.all_eq_true.mp h1
  have hv := List.all_eq_true.mp h2
  simp only [strictMemChars, List.mem_cons, List.mem_append, List.mem_singleton] at hc
  rcases hc with h | h | h | h | h | h | h | h <;>
    first
      | exact absurd h (by decide)
      | exact absurd (hk _ h) (by decide)
      | exact absurd (hv _ h) (by decide)

/-- Quote normalization maps a smart-quoted member to its strict form. -/
theorem map_fix_mem (p : String × String) (h1 : plainStr p.1 = true)
    (h2 : plainStr p.2 = true) :
    (smartMemChars p).map smartQuoteFix = strictMemChars p := by
  have e1 : smartQuoteFix '“' = '"' := by decide
  have e2 : smartQuoteFix '”' = '"' := by decide
  have e3 : smartQuoteFix ':' = ':' := by decide
  have e4 : smartQuoteFix ' ' = ' ' := by decide
  simp only [smartMemChars, strictMemChars, List.map_cons, List.map_append,
    List.map_nil, e1, e2, e3, e4,
    map_smartQuoteFix_plain p.1.data (List.all_eq_true.mp h1),
    map_smartQuoteFix_plain p.2.data (List.all_eq_true.mp h2)]

/-- Quote normalization maps the joined smart members to the joined
strict members. -/
theorem map_fix_join (kvs : List (String × String))
    (h : ∀ p ∈ kvs, plainStr p.1 = true ∧ plainStr p.2 = true) :
    (joinMems smartMemChars kvs).map smartQuoteFix = joinMems strictMemChars kvs := by
  induction kvs with
  | nil => rfl
  | cons a rest ih =>
    obtain ⟨h1, h2⟩ := h a (by simp)
    cases rest with
    | nil => exact map_fix_mem a h1 h2
    | cons b rest' =>
      have e3 : smartQuoteFix ',' = ',' := by decide
      have e4 : smartQuoteFix ' ' = ' ' := by decide
      simp only [joinMems, List.map_append, List.map_cons, e3, e4,
        map_fix_mem a h1 h2, ih (fun p hp => h p (by simp [hp]))]

/-- The trailing-comma scanner passes comma-free text through. -/
theorem stripGo_no_comma (xs : List Char) (hx : ∀ c ∈ xs, c ≠ ',') :
    ∀ rest, stripGo [] (xs ++ rest) = xs ++ stripGo [] rest := by
  induction xs with
  | nil => intro rest; rfl
  | cons c xs' ih =>
    intro rest
    have hc := hx c (by simp)
    simp only [List.cons_append, stripGo, if_neg hc, List.append_eq]
    rw [ih (fun d hd => hx d (by simp [hd])) rest]

/-- A member separator survives the trailing-comma scanner when the next
member opens with a strict quote. -/
theorem stripGo_sep (t : List Char) :
    stripGo [] (',' :: ' ' :: '"' :: t) = ',' :: ' ' :: '"' :: stripGo [] t := rfl

/-- The scanner strips the trailing comma before the closing brace. -/
theorem stripGo_tail : stripGo [] [',', '\x7d'] = ['\x7d'] := rfl

/-- The scanner strips exactly the trailing comma of a joined strict
member list. -/
theorem stripGo_join (kvs : List (String × String)) (hne : kvs ≠ [])
    (hwf : ∀ p ∈ kvs, plainStr p.1 = true ∧ plainStr p.2 = true) :
    stripGo [] (joinMems strictMemChars kvs ++ [',', '\x7d']) =
      joinMems strictMemChars kvs ++ ['\x7d'] := by
  induction kvs with
  | nil => exact absurd rfl hne
  | cons a rest ih =>
    obtain ⟨h1, h2⟩ := hwf a (by simp)
    cases rest with
    | nil =>
      simp only [joinMems]
      rw [stripGo_no_comma (strictMemChars a) (strictMemChars_ne_comma a h1 h2),
        stripGo_tail]
    | cons b rest' =>
      obtain ⟨t, ht⟩ : ∃ t, joinMems strictMemChars (b :: rest') = '"' :: t := by
        cases rest' with
        | nil => exact ⟨_, rfl⟩
        | cons c rest'' => exact ⟨_, rfl⟩
      simp only [joinMems, List.append_assoc, List.cons_append]
      rw [stripGo_no_comma (strictMemChars a) (strictMemChars_ne_comma a h1 h2)]
      have hmid : (joinMems strictMemChars (b :: rest') ++ [',', '\x7d']) =
          '"' :: (t ++ [',', '\x7d']) := by rw [ht]; rfl
      congr 1
      calc stripGo [] (',' :: ' ' :: (joinMems strictMemChars (b :: rest') ++ [',', '\x7d']))
          = stripGo [] (',' :: ' ' :: '"' :: (t ++ [',', '\x7d'])) := by rw [hmid]
        _ = ',' :: ' ' :: '"' :: stripGo [] (t ++ [',', '\x7d']) := stripGo_sep _
        _ = ',' :: ' ' :: stripGo [] ('"' :: (t ++ [',', '\x7d'])) := rfl
        _ = ',' :: ' ' :: stripGo [] (joinMems strictMemChars (b :: rest') ++ [',', '\x7d']) := by
            rw [← hmid]
        _ = ',' :: ' ' :: (joinMems strictMemChars (b :: rest') ++ ['\x7d']) := by
            rw [ih (by simp) (fun p hp => hwf p (by simp [hp]))]

/-- Sanitizing the smart-quoted rendering yields exactly the strict
rendering: quotes are normalized and the one trailing comma removed. -/
theorem sanitize_renderSmart (kvs : List (String × String)) (hne : kvs ≠ [])
    (hwf : ∀ p ∈ kvs, plainStr p.1 = true ∧ plainStr p.2 = true) :
    sanitizeJsonText (renderSmart kvs) = renderStrict kvs := by
  have e1 : smartQuoteFix '\x7b' = '\x7b' := by decide
  have e2 : smartQuoteFix ',' = ',' := by decide
  have e3 : smartQuoteFix '\x7d' = '\x7d' := by decide
  have hdata : (renderSmart kvs).data = '\x7b' :: (joinMems smartMemChars kvs ++ [',', '\x7d']) :=
    rfl
  apply congrArg String.mk
  rw [hdata]
  simp only [List.map_cons, List.map_append, e1, e2, e3, map_fix_join kvs hwf]
  show stripGo [] ('\x7b' :: (joinMems strictMemChars kvs ++ [',', '\x7d'])) = _
  have hbrace : ('\x7b' : Char) ≠ ',' := by decide
  simp only [stripGo, if_neg hbrace]
  rw [stripGo_join kvs hne hwf]

/-- Non-whitespace characters stop the whitespace skipper. -/
theorem skipWs_cons_nonws (c : Char) (l : List Char) (h : wsChar c = false) :
    skipWs (c :: l) = c :: l := by
  simp [skipWs, h]

/-- The joined strict members open with a strict quote. -/
theorem joinMems_strict_head (kvs : List (String × String)) (h : kvs ≠ []) :
    ∃ t, joinMems strictMemChars kvs = '"' :: t := by
  cases kvs with
  | nil => exact absurd rfl h
  | cons a rest =>
    cases rest with
    | nil => exact ⟨_, rfl⟩
    | cons b rest' => exact ⟨_, rfl⟩

/-- The joined smart members open with a curly smart quote. -/
theorem joinMems_smart_head (kvs : List (String × String)) (h : kvs ≠ []) :
    ∃ t, joinMems smartMemChars kvs = '“' :: t := by
  cases kvs with
  | nil => exact absurd rfl h
  | cons a rest =>
    cases rest with
    | nil => exact ⟨_, rfl⟩
    | cons b rest' => exact ⟨_, rfl⟩

/-- Each member contributes at least one character to the join. -/
theorem joinMems_length_ge (kvs : List (String × String)) :
    kvs.length ≤ (joinMems strictMemChars kvs).length := by
  induction kvs with
  | nil => simp [joinMems]
  | cons a rest ih =>
    cases rest with
    | nil => simp [joinMems, strictMemChars]
    | cons b rest' =>
      simp only [joinMems, List.length_append, List.length_cons] at ih ⊢
      simp [strictMemChars]
      omega

/-- Parsing the strictly rendered members after a separator consumes them
all and stops at the closing brace. -/
theorem parseObjMore_members (kvs : List (String × String)) :
    ∀ (f : Nat) (rest : List Char), kvs ≠ [] →
      (∀ p ∈ kvs, plainStr p.1 = true ∧ plainStr p.2 = true) → kvs.length < f →
      parseObjMore f (joinMems strictMemChars kvs ++ ('\x7d' :: rest)) =
        some (.obj (kvs.map fun p => (p.1, JSVal.str p.2)), rest) := by
  induction kvs with
  | nil => intro f rest hne; exact absurd rfl hne
  | cons a kvs' ih =>
    intro f rest _ hwf hlen
    obtain ⟨h1, h2⟩ := hwf a (by simp)
    have hk := List.all_eq_true.mp h1
    have hv := List.all_eq_true.mp h2
    simp only [List.length_cons] at hlen
    obtain ⟨g, rfl⟩ : ∃ g, f = g + 1 + 1 := ⟨f - 2, by omega⟩
    cases kvs' with
    | nil =>
      show parseObjMore (g + 1 + 1) (strictMemChars a ++ ('\x7d' :: rest)) = _
      simp only [strictMemChars, List.cons_append, List.append_assoc,
        List.singleton_append]
      rw [parseObjMore_quote]
      simp only [memberStep]
      rw [parseStrBody_plain a.1.data hk]
      simp only []
      rw [skipWs_cons_nonws ':' _ (by decide)]
      simp only []
      rw [parseVal_space, parseVal_quote, parseStrBody_plain a.2.data hv]
      simp only [Option.map_some', List.nil_append, mkData_eq]
      rw [skipWs_cons_nonws '\x7d' _ (by decide)]
      simp [mkData_eq]
    | cons b kvs'' =>
      show parseObjMore (g + 1 + 1)
        ((strictMemChars a ++ (',' :: ' ' :: joinMems strictMemChars (b :: kvs''))) ++
          ('\x7d' :: rest)) = _
      simp only [strictMemChars, List.cons_append, List.append_assoc,
        List.singleton_append]
      rw [parseObjMore_quote]
      simp only [memberStep]
      rw [parseStrBody_plain a.1.data hk]
      simp only []
      rw [skipWs_cons_nonws ':' _ (by decide)]
      simp only []
      rw [parseVal_space, parseVal_quote, parseStrBody_plain a.2.data hv]
      simp only [Option.map_some', List.nil_append, mkData_eq]
      rw [skipWs_cons_nonws ',' _ (by decide)]
      simp only []
      rw [parseObjMore_space,
        ih (g + 1) rest (by simp) (fun p hp => hwf p (by simp [hp])) (by omega)]
      simp [mkData_eq]

/-- The greedy brace regex matches a whole string that starts with an
opening brace and ends with the last closing brace. -/
theorem braceSpan_wrapped (s : String) (mid : List Char)
    (h : s.data = '\x7b' :: (mid ++ ['\x7d'])) : braceSpan s = some s := by
  have h1 : (('\x7b' :: (mid ++ ['\x7d'])).findIdx? (· = '\x7b')) = some 0 := by
    rw [List.findIdx?_cons]
    simp
  have hrev : ('\x7b' :: (mid ++ ['\x7d'])).reverse = '\x7d' :: (mid.reverse ++ ['\x7b']) := by
    simp
  have h2 : (('\x7b' :: (mid ++ ['\x7d'])).reverse.findIdx? (· = '\x7d')) = some 0 := by
    rw [hrev, List.findIdx?_cons]
    simp
  have hlen : ('\x7b' :: (mid ++ ['\x7d'])).length = mid.length + 2 := by simp
  have hj : mid.length + 2 - 1 - 0 = mid.length + 1 := by omega
  have htake : ('\x7b' :: (mid ++ ['\x7d'])).take (mid.length + 1 + 1) = '\x7b' :: (mid ++ ['\x7d']) := by
    apply List.take_of_length_le
    simp
  simp only [braceSpan, h, h1, h2, hlen, hj]
  rw [if_pos (by omega)]
  rw [htake, List.drop_zero, ← h, mkData_eq]

/-- The strict rendering parses to the rendered object. -/
theorem jsonParse_renderStrict (kvs : List (String × String)) (hne : kvs ≠ [])
    (hwf : ∀ p ∈ kvs, plainStr p.1 = true ∧ plainStr p.2 = true) :
    jsonParse (renderStrict kvs) = some (renderedObj kvs) := by
  obtain ⟨t, ht⟩ := joinMems_strict_head kvs hne
  have hdata : (renderStrict kvs).data =
      '\x7b' :: (joinMems strictMemChars kvs ++ ['\x7d']) := rfl
  have hlen : (renderStrict kvs).length = (joinMems strictMemChars kvs).length + 2 := by
    show ('\x7b' :: (joinMems strictMemChars kvs ++ ['\x7d'])).length = _
    simp
  have hbound : kvs.length < (joinMems strictMemChars kvs).length + 2 := by
    have := joinMems_length_ge kvs
    omega
  have hmain : parseVal ((renderStrict kvs).length + 1) (renderStrict kvs).data =
      some (renderedObj kvs, []) := by
    rw [hdata, parseVal_brace, hlen]
    have hsucc : (joinMems strictMemChars kvs).length + 2 =
        ((joinMems strictMemChars kvs).length + 1) + 1 := rfl
    rw [hsucc]
    have hquote : parseObjBody (((joinMems strictMemChars kvs).length + 1) + 1)
        (joinMems strictMemChars kvs ++ ['\x7d']) =
        parseObjMore (((joinMems strictMemChars kvs).length + 1) + 1)
          (joinMems strictMemChars kvs ++ ['\x7d']) := by
      rw [ht, List.cons_append, parseObjBody_quote, parseObjMore_quote]
    rw [hquote]
    have hmem := parseObjMore_members kvs
      (((joinMems strictMemChars kvs).length + 1) + 1) [] hne hwf (by omega)
    rw [show (joinMems strictMemChars kvs ++ ['\x7d']) =
      (joinMems strictMemChars kvs ++ ('\x7d' :: [])) from rfl]
    rw [hmem]
    rfl
  rw [jsonParse, hmain]
  rfl

/-- The smart-quoted rendering fails the strict parse. -/
theorem jsonParse_renderSmart_none (kvs : List (String × String)) (hne : kvs ≠ []) :
    jsonParse (renderSmart kvs) = none := by
  obtain ⟨t, ht⟩ := joinMems_smart_head kvs hne
  have hdata : (renderSmart kvs).data =
      '\x7b' :: ('“' :: (t ++ [',', '\x7d'])) := by
    show '\x7b' :: (joinMems smartMemChars kvs ++ [',', '\x7d']) = _
    rw [ht]
    rfl
  have hlen : (renderSmart kvs).length = t.length + 4 := by
    show (renderSmart kvs).data.length = _
    rw [hdata]
    simp
    try omega
  rw [jsonParse, hdata, hlen]
  rw [show t.length + 4 + 1 = (t.length + 4) + 1 from rfl, parseVal_brace]
  rw [show t.length + 4 = (t.length + 3) + 1 from rfl, parseObjBody_smart]

/-- C6: counterexample to the unrestricted claim over every smart-quoted
object text with a trailing comma. The trailing-comma strip is a global
textual replace with no string awareness, so in the smart-quoted text
\x7b“a”: “x,\x7d”,\x7d the ",\x7d" inside the string value is rewritten
too: the sanitized retry parses the value as "x\x7d", while the
strict-JSON equivalent \x7b"a": "x,\x7d"\x7d parses it as "x,\x7d" — a
different logical object. -/
theorem sanitization_counterexample :
    extractJsonObject "\x7b“a”: “x,\x7d”,\x7d"
      = some (.obj [("a", .str "x\x7d")]) ∧
    extractJsonObject "\x7b\"a\": \"x,\x7d\"\x7d"
      = some (.obj [("a", .str "x,\x7d")]) ∧
    extractJsonObject "\x7b“a”: “x,\x7d”,\x7d"
      ≠ extractJsonObject "\x7b\"a\": \"x,\x7d\"\x7d" := by
  refine ⟨rfl, rfl, ?_⟩
  intro h
  rw [show extractJsonObject "\x7b“a”: “x,\x7d”,\x7d"
        = some (JSVal.obj [("a", JSVal.str "x\x7d")]) from rfl,
      show extractJsonObject "\x7b\"a\": \"x,\x7d\"\x7d"
        = some (JSVal.obj [("a", JSVal.str "x,\x7d")]) from rfl] at h
  simp at h

/-- C6 (amended): on the fragment where the global replace cannot touch
string contents — a flat JSON object with plain (alphanumeric/space)
string keys and values, rendered with curly smart quotes and a trailing
comma before the closing brace — extraction succeeds via the sanitation
pass (the strict first parse fails) and yields the same logical object as
extractJsonObject applied to the strict-JSON equivalent text. -/
theorem sanitization_round_trip (kvs : List (String × String)) (hne : kvs ≠ [])
    (hwf : ∀ p ∈ kvs, plainStr p.1 = true ∧ plainStr p.2 = true) :
    extractJsonObject (renderSmart kvs) = some (renderedObj kvs) ∧
    jsonParse (renderSmart kvs) = none ∧
    extractJsonObject (renderSmart kvs) = extractJsonObject (renderStrict kvs) := by
  have hspanSmart : braceSpan (renderSmart kvs) = some (renderSmart kvs) :=
    braceSpan_wrapped _ (joinMems smartMemChars kvs ++ [','])
      (by show '\x7b' :: (joinMems smartMemChars kvs ++ [',', '\x7d']) = _; simp)
  have hspanStrict : braceSpan (renderStrict kvs) = some (renderStrict kvs) :=
    braceSpan_wrapped _ (joinMems strictMemChars kvs) rfl
  have hnone := jsonParse_renderSmart_none kvs hne
  have hstrict := jsonParse_renderStrict kvs hne hwf
  have hx : extractJsonObject (renderSmart kvs) = some (renderedObj kvs) := by
    simp only [extractJsonObject, hspanSmart, hnone, sanitize_renderSmart kvs hne hwf,
      hstrict]
  refine ⟨hx, hnone, ?_⟩
  rw [hx]
  simp only [extractJsonObject, hspanStrict, hstrict]

/-- Witness for C6 at the spec's own example pair. -/
theorem sanitization_round_trip_witness :
    extractJsonObject (renderSmart [("role", "ok")]) = some (renderedObj [("role", "ok")]) ∧
    jsonParse (renderSmart [("role", "ok")]) = none ∧
    extractJsonObject (renderSmart [("role", "ok")]) =
      extractJsonObject (renderStrict [("role", "ok")]) :=
  sanitization_round_trip [("role", "ok")] (by decide) (by decide)

end AgentGoRound
